import Mathlib

/-! The `execlocal` command of goenv.

A shallow embedding of `cmd/execlocal.go`: the `environ` slice with its
`Unset`, `IsSet` and `Set` methods, the line parser `listRaw`, and the
orchestrator `execLocalRun`, followed by theorems about them.

Modelling conventions.

* A Go `string` is a sequence of bytes: `Str := List Nat`, one number per
  byte.  The only bytes the program inspects are `=` (61) and `#` (35).
* A method with a pointer receiver takes the receiver's value and returns
  the new value (together with its result, if it has one).
* Writes to `os.Stderr` and calls into the file system are returned as
  lists, in the order in which the program performs them.
-/

namespace Goenv

/-- A Go string: its bytes, in order. -/
abbrev Str := List Nat

/-- The bytes of an ASCII literal. -/
def bytes (s : String) : Str := s.data.map Char.toNat

/-- The one-byte string `"="`. -/
def eq : Str := [61]

/-- The byte `'#'`. -/
def hash : Nat := 35

/-- Go `strings.HasPrefix(s, prefix)`:
`len(s) >= len(prefix) && s[:len(prefix)] == prefix`. -/
def HasPrefix (s pfx : Str) : Bool :=
  decide (pfx.length ≤ s.length) && (s.take pfx.length == pfx)

/-- Go `strings.Index(s, substr)` scanning from offset `i`: the offset of the
first instance of `substr`, or `-1`. -/
def indexFrom (substr : Str) : Str → Nat → Int
  | [], i => if substr.isEmpty then (i : Int) else -1
  | c :: cs, i => if HasPrefix (c :: cs) substr then (i : Int) else indexFrom substr cs (i + 1)

/-- Go `strings.Index(s, substr)`. -/
def Index (s substr : Str) : Int := indexFrom substr s 0

/-- The type `environ` of `execlocal.go`: a slice of strings `"key=value"`. -/
abbrev environ := List Str

/-- The method `(*environ).Unset`: the first entry with prefix `key+"="` is
overwritten by the final entry, the slice is cut by one, and the loop stops. -/
def Unset (e : environ) (key : Str) : environ :=
  match e.findIdx? (fun s => HasPrefix s (key ++ eq)) with
  | some i => ((e.set i (e.getLastD [])).take (e.length - 1))
  | none => e

/-- The method `(*environ).IsSet`: the result, and the receiver (which the
method never assigns to). -/
def IsSet (e : environ) (key : Str) : Bool × environ :=
  (e.any (fun s => HasPrefix s (key ++ eq)), e)

/-- The method `(*environ).Set`: `Unset`, then append `key+"="+val`. -/
def Set (e : environ) (key val : Str) : environ :=
  Unset e key ++ [key ++ eq ++ val]

/-- A record `store.RawSecret`, as far as `execlocal.go` uses it. -/
structure RawSecret where
  Key : Str
  Value : Str
deriving DecidableEq, Repr

/-- A Go `error` value: one produced by the operating system or the scanner,
or `errors.Wrap(cause, message)`. -/
inductive GoError where
  | base (msg : Str)
  | wrap (cause : GoError) (message : Str)
deriving DecidableEq, Repr

/-- The method `Error()`: `errors.Wrap` puts the message, a colon and a blank
in front of the cause. -/
def GoError.Error : GoError → Str
  | GoError.base msg => msg
  | GoError.wrap cause message => message ++ bytes ": " ++ cause.Error

/-- What the file system answers for one path: the error of `os.Stat` and of
`os.Open` (if any), the lines the `bufio.Scanner` yields before it stops, and
the error `scanner.Err()` reports afterwards (if any). -/
structure FileState where
  statErr : Option GoError
  openErr : Option GoError
  lines : List Str
  scanErr : Option GoError

/-- The file system: the state of every path. -/
abbrev FileSystem := Str → FileState

/-- The observable actions of the program, apart from `exec`. -/
inductive Event where
  | stat (file : Str)
  | open (file : Str)
  | stderr (text : Str)
deriving DecidableEq, Repr

/-- The text of `"warning: overwriting environment variable %s\n"`. -/
def overwriteWarning (key : Str) : Str :=
  bytes "warning: overwriting environment variable " ++ key ++ bytes "\n"

/-- The text of `"warning: invalid line in file \"%s\"\n"`. -/
def invalidLineWarning (text : Str) : Str :=
  bytes "warning: invalid line in file \"" ++ text ++ bytes "\"\n"

/-- One turn of the `for scanner.Scan()` loop of `listRaw`, on the line
`text`: the slice `secrets` and the events so far, updated. -/
def scanStep (acc : List RawSecret × List Event) (text : Str) :
    List RawSecret × List Event :=
  if text.length = 0 ∨ text.head? = some hash then acc
  else
    let idx := Index text eq
    if idx ≤ 0 then (acc.1, acc.2 ++ [Event.stderr (invalidLineWarning text)])
    else (acc.1 ++ [{ Key := text.take idx.toNat, Value := text.drop (idx.toNat + 1) }], acc.2)

/-- The function `validateFile`: the error of `os.Stat`, and the events. -/
def validateFile (fs : FileSystem) (file : Str) : Option GoError × List Event :=
  ((fs file).statErr, [Event.stat file])

/-- The function `listRaw`: its two results (the secrets or the error), and
the events. -/
def listRaw (fs : FileSystem) (file : Str) : Except GoError (List RawSecret) × List Event :=
  match (fs file).openErr with
  | some err => (Except.error err, [Event.open file])
  | none =>
    let r := (fs file).lines.foldl scanStep ([], [Event.open file])
    match (fs file).scanErr with
    | some err => (Except.error err, r.2)
    | none => (Except.ok r.1, r.2)

/-- How a call of `execLocalRun` ends. -/
inductive Outcome where
  | panic
  | error (err : GoError)
  | exec (command : Str) (commandArgs : List Str) (env : environ)
deriving DecidableEq, Repr

/-- One turn of the loop over `rawSecrets` in `execLocalRun`. -/
def mergeStep (acc : environ × List Event) (rawSecret : RawSecret) : environ × List Event :=
  let r := IsSet acc.1 rawSecret.Key
  let events := if r.1 then acc.2 ++ [Event.stderr (overwriteWarning rawSecret.Key)] else acc.2
  (Set r.2 rawSecret.Key rawSecret.Value, events)

/-- The loop over `files` in `execLocalRun`, and the final `exec`. -/
def runFiles (fs : FileSystem) (command : Str) (commandArgs : List Str) :
    List Str → environ → List Event → Outcome × List Event
  | [], env, events => (Outcome.exec command commandArgs env, events)
  | file :: rest, env, events =>
    match validateFile fs file with
    | (some err, ev) => (Outcome.error (GoError.wrap err (bytes "Failed to validate file")), events ++ ev)
    | (none, ev) =>
      match listRaw fs file with
      | (Except.error err, ev2) =>
        (Outcome.error (GoError.wrap err (bytes "Failed to list file contents")), events ++ ev ++ ev2)
      | (Except.ok rawSecrets, ev2) =>
        let r := rawSecrets.foldl mergeStep (env, events ++ ev ++ ev2)
        runFiles fs command commandArgs rest r.1 r.2

/-- The function `execLocalRun`.  `args` and `dashIx` are what cobra hands
over (`cmd.ArgsLenAtDash()`), `osEnviron` is `os.Environ()`.  The slice
expressions of the first statement panic unless `0 ≤ dashIx < len(args)`. -/
def execLocalRun (fs : FileSystem) (osEnviron : List Str) (args : List Str) (dashIx : Int) :
    Outcome × List Event :=
  if 0 ≤ dashIx ∧ dashIx < args.length then
    let files := args.take dashIx.toNat
    let command := args.getD dashIx.toNat []
    let commandArgs := args.drop (dashIx.toNat + 1)
    runFiles fs command commandArgs files osEnviron []
  else (Outcome.panic, [])

/-- The lines written to `os.Stderr`, in order. -/
def stderrOf (events : List Event) : List Str :=
  events.filterMap (fun ev => match ev with
    | Event.stderr text => some text
    | _ => none)

/-- Go `strings.Contains(s, substr)`: `Index(s, substr) >= 0`. -/
def Contains (s substr : Str) : Bool := decide (0 ≤ Index s substr)

/-- The validator `cobra.MinimumNArgs(n)` applied to `args`: an error when
there are fewer than `n` arguments, with the text
`requires at least %d arg(s), only received %d`. -/
def MinimumNArgs (n : Nat) (args : List Str) : Option GoError :=
  if args.length < n then
    some (GoError.base (bytes "requires at least " ++ bytes (toString n)
      ++ bytes " arg(s), only received " ++ bytes (toString args.length)))
  else none

/-- How a call of the `Args` validator ends. -/
inductive Validation where
  | panic
  | fail (err : GoError)
  | pass
deriving DecidableEq, Repr

/-- The `Args` function of `execLocalCmd`, with `dashIx` the value of
`cmd.ArgsLenAtDash()`, and the events.  The slice expressions `args[:dashIx]`
and `args[dashIx:]` panic unless `0 ≤ dashIx ≤ len(args)`. -/
def execLocalCmd.Args (args : List Str) (dashIx : Int) : Validation × List Event :=
  if dashIx = -1 then
    (Validation.fail (GoError.base
      (bytes "please separate files and command with '--'. See usage")), [])
  else if 0 ≤ dashIx ∧ dashIx ≤ args.length then
    match MinimumNArgs 1 (args.take dashIx.toNat) with
    | some err =>
      (Validation.fail (GoError.wrap err (bytes "at least one file must be specified")), [])
    | none =>
      match MinimumNArgs 1 (args.drop dashIx.toNat) with
      | some err =>
        (Validation.fail (GoError.wrap err (bytes "must specify command to run. See usage")), [])
      | none => (Validation.pass, [])
  else (Validation.panic, [])

/-- The function `Execute`, from the point where `RootCmd.ExecuteC()` has
returned `err`: whether `cmd.Usage()` is called, and the status handed to
`os.Exit` (none when `Execute` returns). -/
def Execute (err : Option GoError) : Bool × Option Nat :=
  match err with
  | none => (false, none)
  | some e =>
    (Contains e.Error (bytes "arg(s)") || Contains e.Error (bytes "usage"), some 1)

/-! ## Vocabulary of the specification -/

/-- The entry `s` begins with `key=`. -/
def beginsWith (s key : Str) : Prop := (key ++ eq) <+: s

instance (s key : Str) : Decidable (beginsWith s key) := by
  unfold beginsWith; infer_instance

/-- The string contains no `=`. -/
def noEq (key : Str) : Prop := 61 ∉ key

instance (key : Str) : Decidable (noEq key) := by
  unfold noEq; infer_instance

/-- For each key, at most one entry of the environ begins with `key=`. -/
def UniqueKeys (e : environ) : Prop :=
  ∀ key : Str, e.countP (fun s => decide (beginsWith s key)) ≤ 1

/-- A sequence of calls `Set(key, value)`, applied in order. -/
def applySets (e : environ) (calls : List (Str × Str)) : environ :=
  calls.foldl (fun acc c => Set acc c.1 c.2) e

/-- The line is skipped without a word: it is empty or starts with `#`. -/
def skippedLine (text : Str) : Prop := text = [] ∨ text.head? = some hash

instance (text : Str) : Decidable (skippedLine text) := by
  unfold skippedLine; infer_instance

/-- The line is well formed: not empty, not a comment, and its first `=`
exists and is not its first byte. -/
def wellFormedLine (text : Str) : Prop :=
  text ≠ [] ∧ text.head? ≠ some hash ∧ 61 ∈ text ∧ text.head? ≠ some 61

instance (text : Str) : Decidable (wellFormedLine text) := by
  unfold wellFormedLine; infer_instance

/-- The line is malformed: not empty, not a comment, and it has no `=` or
starts with `=`. -/
def malformedLine (text : Str) : Prop :=
  text ≠ [] ∧ text.head? ≠ some hash ∧ (61 ∉ text ∨ text.head? = some 61)

instance (text : Str) : Decidable (malformedLine text) := by
  unfold malformedLine; infer_instance

/-- The line a record stands for: `Key`, `=`, `Value`. -/
def RawSecret.line (r : RawSecret) : Str := r.Key ++ eq ++ r.Value

/-- The calls `Set(Key, Value)` that merging a list of records makes. -/
def callsOf (recs : List RawSecret) : List (Str × Str) :=
  recs.map (fun r => (r.Key, r.Value))

/-- The file is loaded by `listRaw` without error. -/
def loads (fs : FileSystem) (file : Str) : Bool :=
  match (listRaw fs file).1 with
  | Except.ok _ => true
  | Except.error _ => false

/-- The file passes `validateFile` and is loaded by `listRaw` without error. -/
def fileOk (fs : FileSystem) (file : Str) : Prop :=
  (validateFile fs file).1 = none ∧ loads fs file = true

instance (fs : FileSystem) (file : Str) : Decidable (fileOk fs file) := by
  unfold fileOk; infer_instance

/-- The record list `listRaw` produces for a file (empty when it fails). -/
def recordsOf (fs : FileSystem) (file : Str) : List RawSecret :=
  match (listRaw fs file).1 with
  | Except.ok recs => recs
  | Except.error _ => []

/-- The records of a list of files, files in the caller's order and records
in line order. -/
def allRecords (fs : FileSystem) (files : List Str) : List RawSecret :=
  files.flatMap (recordsOf fs)

/-- The key of the record is already set when its turn comes: `IsSet` holds
on the base environ, or an earlier record of the run has the same key. -/
def alreadySet (base : environ) (earlier : List RawSecret) (r : RawSecret) : Prop :=
  (IsSet base r.Key).1 = true ∨ ∃ r' ∈ earlier, r'.Key = r.Key

instance (base : environ) (earlier : List RawSecret) (r : RawSecret) :
    Decidable (alreadySet base earlier r) := by
  unfold alreadySet; infer_instance

/-- The overwrite warnings the specification asks for: one for each record
whose key is already set, in record order. -/
def expectedOverwrites (base : environ) : List RawSecret → List RawSecret → List Str
  | _, [] => []
  | earlier, r :: rest =>
    (if alreadySet base earlier r then [overwriteWarning r.Key] else [])
      ++ expectedOverwrites base (earlier ++ [r]) rest

/-- The text is an overwrite warning. -/
def isOverwriteWarning (text : Str) : Bool :=
  decide (bytes "warning: overwriting environment variable " <+: text)

/-- The calls into the file system among the events, in order. -/
def fsCalls (events : List Event) : List Event :=
  events.filter (fun ev => match ev with
    | Event.stderr _ => false
    | _ => true)

/-- The events of a run over files that all load: per file the two calls
into the file system, the warnings for its malformed lines, and the
overwrite warnings for its records. -/
def okEvents (fs : FileSystem) (base : environ) : List RawSecret → List Str → List Event
  | _, [] => []
  | earlier, file :: rest =>
    [Event.stat file, Event.open file]
      ++ ((fs file).lines.filter (fun t => decide (malformedLine t))).map
          (fun t => Event.stderr (invalidLineWarning t))
      ++ (expectedOverwrites base earlier (recordsOf fs file)).map Event.stderr
      ++ okEvents fs base (earlier ++ recordsOf fs file) rest

/-- The key of an entry: the text before its first `=`, if it has one. -/
def entryKey (s : Str) : Option Str :=
  if 61 ∈ s then some (s.takeWhile (fun c => c != 61)) else none

/-- No two entries of the environ share the same key. -/
def NoSharedKey (e : environ) : Prop :=
  e.Pairwise (fun a b => entryKey a = none ∨ entryKey a ≠ entryKey b)

instance (e : environ) : Decidable (NoSharedKey e) := by
  unfold NoSharedKey; infer_instance

/-! ## The Go runtime: the environment snapshot and the line scanner -/

/-- Go `syscall.copyenv`, which `os.Environ()` runs once over the environment
block of the process: an entry with a `=` whose key (the text before its
first `=`) was met in an earlier entry is cleared to the empty string.  `seen`
holds the keys met so far. -/
def copyenv (seen : List Str) : List Str → List Str
  | [] => []
  | s :: rest =>
    match entryKey s with
    | some key =>
      if key ∈ seen then [] :: copyenv seen rest
      else s :: copyenv (key :: seen) rest
    | none => s :: copyenv seen rest

/-- Go `os.Environ()` on the environment block `envs` of the process: the
entries that `copyenv` has not cleared. -/
def Environ (envs : List Str) : List Str :=
  (copyenv [] envs).filter (fun s => decide (s ≠ []))

/-- The constant `bufio.MaxScanTokenSize`. -/
def MaxScanTokenSize : Nat := 64 * 1024

/-- The error `bufio.ErrTooLong`. -/
def ErrTooLong : GoError := GoError.base (bytes "bufio.Scanner: token too long")

/-- Go `dropCR` of `bufio`: a final `\r` is dropped. -/
def dropCR (data : Str) : Str :=
  if data.getLast? = some 13 then data.dropLast else data

/-- A `bufio.Scanner` with the default buffer and the split function
`ScanLines`, as `listRaw` uses it: the tokens it yields and the value of
`scanner.Err()`.  `data` are the bytes of the file still to come, `line` the
bytes of the current line so far, `readErr` the error of the read that ends
the data (none at end of file).  A line is cut at `\n`; a line of
`MaxScanTokenSize` bytes or more does not fit the buffer and ends the scan
with `ErrTooLong`. -/
def scanFrom (readErr : Option GoError) : Str → Str → List Str × Option GoError
  | [], line =>
    if line = [] then ([], readErr)
    else if MaxScanTokenSize ≤ line.length then ([], some ErrTooLong)
    else ([dropCR line], readErr)
  | c :: rest, line =>
    if c = 10 then
      if MaxScanTokenSize ≤ line.length then ([], some ErrTooLong)
      else ((dropCR line) :: (scanFrom readErr rest []).1, (scanFrom readErr rest []).2)
    else scanFrom readErr rest (line ++ [c])

/-- A file that exists and opens, with the given bytes, read through the
scanner; `readErr` is the I/O error of the read that ends them, if any. -/
def fileOnDisk (content : Str) (readErr : Option GoError) : FileState :=
  { statErr := none, openErr := none,
    lines := (scanFrom readErr content []).1, scanErr := (scanFrom readErr content []).2 }

/-- A file system whose files all hold one line of 65536 bytes `a`, and are
read without I/O error. -/
def longLineFs : FileSystem := fun _ => fileOnDisk (List.replicate 65536 97) none

/-! ## Concrete inputs -/

/-- A file that exists and reads without error, with the given lines. -/
def fileWith (lines : List Str) : FileState :=
  { statErr := none, openErr := none, lines := lines, scanErr := none }

/-- A path at which there is no file. -/
def missingFile : FileState :=
  { statErr := some (GoError.base (bytes "no such file or directory")),
    openErr := some (GoError.base (bytes "no such file or directory")),
    lines := [], scanErr := none }

/-- A file that exists but cannot be opened. -/
def unreadableFile : FileState :=
  { statErr := none, openErr := some (GoError.base (bytes "permission denied")),
    lines := [], scanErr := none }

/-- A small file system used for the concrete runs below. -/
def demoFs : FileSystem := fun path =>
  if path = bytes "file1" then fileWith [bytes "A=2"]
  else if path = bytes "file2" then fileWith [bytes "A=3"]
  else if path = bytes "port.env" then fileWith [bytes "PORT=8080"]
  else if path = bytes "b.env" then fileWith [bytes "B=1"]
  else if path = bytes "url.env" then fileWith [bytes "URL=http://x?a=1"]
  else if path = bytes "mixed.env" then
    fileWith [bytes "# comment", [], bytes "FOO=bar", bytes "invalidline"]
  else if path = bytes "locked.env" then unreadableFile
  else missingFile

/-- A file system in which nothing exists; `os.Stat` names the path in its
error, as `stat <path>: no such file or directory`. -/
def emptyFs : FileSystem := fun path =>
  { statErr := some (GoError.base
      (bytes "stat " ++ path ++ bytes ": no such file or directory")),
    openErr := some (GoError.base
      (bytes "open " ++ path ++ bytes ": no such file or directory")),
    lines := [], scanErr := none }

/-! ## Prefixes and keys -/

theorem hasPrefix_iff (s pfx : Str) : HasPrefix s pfx = true ↔ pfx <+: s := by
  unfold HasPrefix
  rw [List.prefix_iff_eq_take]
  constructor
  · intro h
    simp only [Bool.and_eq_true, decide_eq_true_eq, beq_iff_eq] at h
    exact h.2.symm
  · intro h
    simp only [Bool.and_eq_true, decide_eq_true_eq, beq_iff_eq]
    refine ⟨?_, h.symm⟩
    have := congrArg List.length h
    simp only [List.length_take] at this
    omega

theorem hasPrefix_key (s key : Str) : HasPrefix s (key ++ eq) = decide (beginsWith s key) := by
  by_cases h : beginsWith s key
  · simp only [h, decide_True]; exact (hasPrefix_iff _ _).2 h
  · simp only [h, decide_False]
    cases hp : HasPrefix s (key ++ eq)
    · rfl
    · exact absurd ((hasPrefix_iff _ _).1 hp) h

/-- A string is cut at the first occurrence of a byte in one way only. -/
theorem split_unique {a : Nat} : ∀ {k k' t t' : Str}, a ∉ k → a ∉ k' →
    k ++ a :: t = k' ++ a :: t' → k = k' ∧ t = t'
  | [], [], _, _, _, _, h => by simpa using h
  | [], c :: k', _, _, _, hk', h => by
    simp only [List.nil_append, List.cons_append, List.cons.injEq] at h
    exact absurd (h.1 ▸ List.mem_cons_self _ _) hk'
  | c :: k, [], _, _, hk, _, h => by
    simp only [List.nil_append, List.cons_append, List.cons.injEq] at h
    exact absurd (h.1 ▸ List.mem_cons_self _ _) hk
  | c :: k, c' :: k', t, t', hk, hk', h => by
    simp only [List.cons_append, List.cons.injEq] at h
    have ih := split_unique (fun m => hk (List.mem_cons_of_mem _ m))
      (fun m => hk' (List.mem_cons_of_mem _ m)) h.2
    exact ⟨by rw [h.1, ih.1], ih.2⟩

/-- Two `=`-free keys that an entry begins with are the same key. -/
theorem key_unique {s k k' : Str} (hk : noEq k) (hk' : noEq k')
    (h : beginsWith s k) (h' : beginsWith s k') : k = k' := by
  obtain ⟨t, ht⟩ := h
  obtain ⟨t', ht'⟩ := h'
  have e : k ++ 61 :: t = k' ++ 61 :: t' := by
    have := ht.trans ht'.symm
    simpa [eq] using this
  exact (split_unique hk hk' e).1

/-! ## `Unset`, entry by entry -/

theorem Unset_nil (k : Str) : Unset [] k = [] := rfl

theorem Unset_cons_pos {x : Str} (xs : environ) {k : Str} (h : beginsWith x k) :
    Unset (x :: xs) k =
      (match xs.getLast? with
        | none => []
        | some l => l :: xs.dropLast) := by
  have hx : HasPrefix x (k ++ eq) = true := by rw [hasPrefix_key]; simpa using h
  unfold Unset
  simp only [List.findIdx?_cons, hx, if_true, List.set_cons_zero, List.length_cons,
    Nat.add_sub_cancel]
  cases xs with
  | nil => simp
  | cons y ys =>
    have hne : (y :: ys) ≠ [] := by simp
    rw [List.getLast?_eq_getLast _ hne]
    simp only [List.length_cons, List.take_succ_cons, List.cons.injEq]
    refine ⟨?_, ?_⟩
    · simp [List.getLastD, List.getLast?_eq_getLast _ hne]
    · rw [List.dropLast_eq_take]; simp

theorem Unset_cons_neg {x : Str} (xs : environ) {k : Str} (h : ¬ beginsWith x k) :
    Unset (x :: xs) k = x :: Unset xs k := by
  have hx : HasPrefix x (k ++ eq) = false := by rw [hasPrefix_key]; simpa using h
  unfold Unset
  simp only [List.findIdx?_cons, hx]
  cases hf : List.findIdx? (fun s => HasPrefix s (k ++ eq)) xs with
  | none => simp [hf]
  | some i =>
    have hi : i < xs.length := by
      have := List.findIdx?_eq_some_iff_findIdx_eq.1 hf
      exact this.1
    cases xs with
    | nil => simp at hi
    | cons y ys =>
      simp [hf, List.getLastD]

/-- Up to the order of the entries, `Unset` erases the first entry that
begins with `key=`. -/
theorem Unset_perm (e : environ) (k : Str) :
    (Unset e k).Perm (e.eraseP (fun s => decide (beginsWith s k))) := by
  induction e with
  | nil => simp [Unset_nil]
  | cons x xs ih =>
    by_cases h : beginsWith x k
    · rw [Unset_cons_pos xs h, List.eraseP_cons_of_pos (by simpa using h)]
      cases hl : xs.getLast? with
      | none =>
        have : xs = [] := by simpa using hl
        simp [this]
      | some l =>
        have hx : xs.dropLast ++ [l] = xs := List.dropLast_append_getLast? l hl
        simp only
        calc (l :: xs.dropLast).Perm (xs.dropLast ++ [l]) := (List.perm_append_singleton l _).symm
          _ = xs := hx
    · rw [Unset_cons_neg xs h, List.eraseP_cons_of_neg (by simpa using h)]
      exact ih.cons x

/-- Erasing with `p` does not touch the entries selected by a predicate
disjoint from `p`. -/
theorem filter_eraseP_disjoint {p q : Str → Bool} (hpq : ∀ s, q s = true → p s = false) :
    ∀ l : List Str, (l.eraseP p).filter q = l.filter q
  | [] => rfl
  | x :: xs => by
    cases hp : p x
    · rw [List.eraseP_cons_of_neg (by simp [hp])]
      simp only [List.filter_cons, filter_eraseP_disjoint hpq xs]
    · rw [List.eraseP_cons_of_pos hp]
      have hq : q x = false := by
        cases hq : q x
        · rfl
        · rw [hpq x hq] at hp; cases hp
      simp [List.filter_cons, hq]

/-- After erasing with `p`, one entry fewer satisfies `p`. -/
theorem countP_eraseP_self (p : Str → Bool) :
    ∀ l : List Str, (l.eraseP p).countP p = l.countP p - 1
  | [] => rfl
  | x :: xs => by
    cases hp : p x
    · rw [List.eraseP_cons_of_neg (by simp [hp])]
      simp only [List.countP_cons, hp, countP_eraseP_self p xs]
      simp
    · rw [List.eraseP_cons_of_pos hp]
      simp [List.countP_cons, hp]

theorem countP_Unset_le (q : Str → Bool) (e : environ) (k : Str) :
    (Unset e k).countP q ≤ e.countP q := by
  rw [(Unset_perm e k).countP_eq]
  exact (List.eraseP_sublist e).countP_le q

theorem countP_Unset_self (e : environ) (k : Str) :
    (Unset e k).countP (fun s => decide (beginsWith s k))
      = e.countP (fun s => decide (beginsWith s k)) - 1 := by
  rw [(Unset_perm e k).countP_eq, countP_eraseP_self]

/-- An entry that begins with `k'=` for a key `k'` reaching beyond the `=`-free
key `k` of an entry `k=v` begins with `k=` too. -/
theorem beginsWith_of_beginsWith_new {k v k' s : Str} (hk : noEq k)
    (hnew : beginsWith (k ++ eq ++ v) k') (hs : beginsWith s k') : beginsWith s k := by
  obtain ⟨t, ht⟩ := hnew
  obtain ⟨u, hu⟩ := hs
  have e1 : k' ++ 61 :: t = k ++ 61 :: v := by simpa [eq] using ht
  -- `k` is a prefix of `k'`
  have hpre : (k ++ eq) <+: (k' ++ eq) := by
    by_cases h61 : 61 ∈ k'
    · obtain ⟨a, b, hab, ha⟩ : ∃ a b, k' = a ++ 61 :: b ∧ 61 ∉ a := by
        obtain ⟨a, b, hab, ha⟩ := List.eq_append_cons_of_mem h61
        exact ⟨a, b, hab, ha⟩
      have e2 : a ++ 61 :: (b ++ 61 :: t) = k ++ 61 :: v := by
        rw [← e1, hab]; simp
      have := (split_unique ha hk e2).1
      subst this
      exact ⟨b ++ eq, by rw [hab]; simp [eq]⟩
    · have := (split_unique h61 hk e1).1
      subst this
      exact List.prefix_refl _
  exact hpre.trans ⟨u, hu⟩

/-! ## `Set` and `IsSet` -/

theorem IsSet_iff (e : environ) (k : Str) :
    (IsSet e k).1 = true ↔ ∃ s ∈ e, beginsWith s k := by
  simp [IsSet, List.any_eq_true, hasPrefix_key]

theorem new_beginsWith (k v : Str) : beginsWith (k ++ eq ++ v) k :=
  ⟨v, rfl⟩

theorem new_beginsWith_iff {k k' : Str} (v : Str) (hk : noEq k) (hk' : noEq k') :
    beginsWith (k' ++ eq ++ v) k ↔ k = k' :=
  ⟨fun h => key_unique hk hk' h (new_beginsWith k' v), fun h => h ▸ new_beginsWith k v⟩

/-- `Set` with an `=`-free key keeps the keys of the environ unique. -/
theorem Set_uniqueKeys {e : environ} {k : Str} (v : Str) (he : UniqueKeys e) (hk : noEq k) :
    UniqueKeys (Set e k v) := by
  intro k'
  unfold Set
  rw [List.countP_append]
  by_cases hnew : beginsWith (k ++ eq ++ v) k'
  · -- every entry beginning with `k'=` begins with `k=`, and none of those is left
    have h0 : (Unset e k).countP (fun s => decide (beginsWith s k)) = 0 := by
      rw [countP_Unset_self]
      have := he k
      omega
    have hle : (Unset e k).countP (fun s => decide (beginsWith s k'))
        ≤ (Unset e k).countP (fun s => decide (beginsWith s k)) := by
      apply List.countP_mono_left
      intro s _ hs
      simp only [decide_eq_true_eq] at hs ⊢
      exact beginsWith_of_beginsWith_new hk hnew hs
    have h1 : [k ++ eq ++ v].countP (fun s => decide (beginsWith s k')) = 1 := by
      simpa [List.countP_cons] using hnew
    omega
  · have h1 : [k ++ eq ++ v].countP (fun s => decide (beginsWith s k')) = 0 := by
      simpa [List.countP_cons] using hnew
    have := countP_Unset_le (fun s => decide (beginsWith s k')) e k
    have := he k'
    omega

/-- Right after `Set(k, v)` on an environ with at most one entry for `k`, the
entries beginning with `k=` are `k=v` and nothing else. -/
theorem filter_Set_self {e : environ} (k v : Str)
    (he : e.countP (fun s => decide (beginsWith s k)) ≤ 1) :
    (Set e k v).filter (fun s => decide (beginsWith s k)) = [k ++ eq ++ v] := by
  unfold Set
  have h0 : (Unset e k).countP (fun s => decide (beginsWith s k)) = 0 := by
    rw [countP_Unset_self]; omega
  have hnil : (Unset e k).filter (fun s => decide (beginsWith s k)) = [] := by
    rw [List.countP_eq_length_filter] at h0
    exact List.length_eq_zero.1 h0
  rw [List.filter_append, hnil]
  simpa [List.filter_cons] using new_beginsWith k v

/-- `Set` with another `=`-free key keeps the entries beginning with `k=`. -/
theorem filter_Set_other (e : environ) {k k' : Str} (v : Str) (hk : noEq k) (hk' : noEq k')
    (hne : k ≠ k') :
    ((Set e k' v).filter (fun s => decide (beginsWith s k))).Perm
      (e.filter (fun s => decide (beginsWith s k))) := by
  unfold Set
  have hnew : ¬ beginsWith (k' ++ eq ++ v) k := fun h => hne ((new_beginsWith_iff v hk hk').1 h)
  rw [List.filter_append]
  have hlast : [k' ++ eq ++ v].filter (fun s => decide (beginsWith s k)) = [] := by
    simpa [List.filter_cons] using hnew
  rw [hlast, List.append_nil]
  have hdisj : ∀ s, (fun s => decide (beginsWith s k)) s = true →
      (fun s => decide (beginsWith s k')) s = false := by
    intro s hs
    simp only [decide_eq_true_eq, decide_eq_false_iff_not] at hs ⊢
    exact fun h' => hne (key_unique hk hk' hs h')
  rw [← filter_eraseP_disjoint hdisj e]
  exact (Unset_perm e k').filter _

theorem IsSet_Set (e : environ) {k k' : Str} (v : Str) (hk : noEq k) (hk' : noEq k') :
    (IsSet (Set e k' v) k).1 = true ↔ (k = k' ∨ (IsSet e k).1 = true) := by
  by_cases hkk : k = k'
  · subst hkk
    simp only [true_or, iff_true]
    exact (IsSet_iff _ _).2 ⟨k ++ eq ++ v, by simp [Set], new_beginsWith k v⟩
  · simp only [hkk, false_or]
    have hperm := filter_Set_other e v hk hk' hkk
    rw [IsSet_iff, IsSet_iff]
    constructor
    · rintro ⟨s, hs, hb⟩
      have : s ∈ (Set e k' v).filter (fun s => decide (beginsWith s k)) :=
        List.mem_filter.2 ⟨hs, by simpa using hb⟩
      have := List.mem_filter.1 (hperm.mem_iff.1 this)
      exact ⟨s, this.1, hb⟩
    · rintro ⟨s, hs, hb⟩
      have : s ∈ e.filter (fun s => decide (beginsWith s k)) :=
        List.mem_filter.2 ⟨hs, by simpa using hb⟩
      have := List.mem_filter.1 (hperm.mem_iff.2 this)
      exact ⟨s, this.1, hb⟩

/-! ## Sequences of `Set` -/

theorem applySets_nil (e : environ) : applySets e [] = e := rfl

theorem applySets_cons (e : environ) (c : Str × Str) (cs : List (Str × Str)) :
    applySets e (c :: cs) = applySets (Set e c.1 c.2) cs := rfl

theorem applySets_append (e : environ) (cs ds : List (Str × Str)) :
    applySets e (cs ++ ds) = applySets (applySets e cs) ds := by
  simp [applySets, List.foldl_append]

theorem applySets_uniqueKeys : ∀ (calls : List (Str × Str)) (e : environ),
    UniqueKeys e → (∀ c ∈ calls, noEq c.1) → UniqueKeys (applySets e calls)
  | [], _, he, _ => he
  | c :: cs, e, he, hc => by
    rw [applySets_cons]
    exact applySets_uniqueKeys cs _ (Set_uniqueKeys c.2 he (hc c (List.mem_cons_self _ _)))
      (fun d hd => hc d (List.mem_cons_of_mem _ hd))

theorem applySets_filter_keep {k v : Str} (hk : noEq k) : ∀ (post : List (Str × Str)) (e : environ),
    e.filter (fun s => decide (beginsWith s k)) = [k ++ eq ++ v] →
    (∀ c ∈ post, noEq c.1) → (∀ c ∈ post, c.1 ≠ k) →
    (applySets e post).filter (fun s => decide (beginsWith s k)) = [k ++ eq ++ v]
  | [], _, he, _, _ => he
  | c :: cs, e, he, hc, hne => by
    rw [applySets_cons]
    apply applySets_filter_keep hk cs _ _ (fun d hd => hc d (List.mem_cons_of_mem _ hd))
      (fun d hd => hne d (List.mem_cons_of_mem _ hd))
    have hperm := filter_Set_other e c.2 hk (hc c (List.mem_cons_self _ _))
      (fun h => hne c (List.mem_cons_self _ _) h.symm)
    rw [he] at hperm
    exact List.perm_singleton.1 hperm

/-- Last write wins: after a sequence of `Set` calls with `=`-free keys on an
environ with unique keys, the entries beginning with `k=` are exactly `k=v`
for the last call `Set(k, v)`. -/
theorem applySets_filter_last (e : environ) (pre post : List (Str × Str)) (k v : Str)
    (he : UniqueKeys e) (hpre : ∀ c ∈ pre, noEq c.1) (hk : noEq k)
    (hpost : ∀ c ∈ post, noEq c.1) (hlast : ∀ c ∈ post, c.1 ≠ k) :
    (applySets e (pre ++ (k, v) :: post)).filter (fun s => decide (beginsWith s k))
      = [k ++ eq ++ v] := by
  rw [applySets_append, applySets_cons]
  apply applySets_filter_keep hk post _ _ hpost hlast
  exact filter_Set_self k v (applySets_uniqueKeys pre e he hpre k)

theorem applySets_isSet {k : Str} (hk : noEq k) : ∀ (calls : List (Str × Str)) (e : environ),
    (∀ c ∈ calls, noEq c.1) →
    ((IsSet (applySets e calls) k).1 = true ↔ ((IsSet e k).1 = true ∨ ∃ c ∈ calls, c.1 = k))
  | [], e, _ => by simp [applySets_nil]
  | c :: cs, e, hc => by
    rw [applySets_cons, applySets_isSet hk cs _ (fun d hd => hc d (List.mem_cons_of_mem _ hd)),
      IsSet_Set e c.2 hk (hc c (List.mem_cons_self _ _))]
    simp only [List.mem_cons, exists_eq_or_imp]
    constructor
    · rintro ((h | h) | h)
      · exact Or.inr (Or.inl h.symm)
      · exact Or.inl h
      · exact Or.inr (Or.inr h)
    · rintro (h | h | h)
      · exact Or.inl (Or.inr h)
      · exact Or.inl (Or.inl h.symm)
      · exact Or.inr h

/-! ## The scanner loop of `listRaw` -/

/-- Where `strings.Index(s, "=")` points: nowhere (`-1`) if `s` has no `=`,
and otherwise just behind the longest `=`-free prefix of `s`. -/
theorem indexFrom_eq_spec : ∀ (s : Str) (i : Nat),
    (61 ∉ s ∧ indexFrom eq s i = -1) ∨
    (∃ k t, s = k ++ 61 :: t ∧ 61 ∉ k ∧ indexFrom eq s i = ((i + k.length : Nat) : Int))
  | [], i => Or.inl ⟨by simp, by simp [indexFrom, eq]⟩
  | c :: cs, i => by
    by_cases hc : c = 61
    · subst hc
      exact Or.inr ⟨[], cs, rfl, by simp, by simp [indexFrom, eq, HasPrefix]⟩
    · have hstep : indexFrom eq (c :: cs) i = indexFrom eq cs (i + 1) := by
        simp [indexFrom, eq, HasPrefix, hc]
      rcases indexFrom_eq_spec cs (i + 1) with ⟨hno, hi⟩ | ⟨k, t, hs, hk, hi⟩
      · exact Or.inl ⟨by simp [hno, Ne.symm hc], hstep.trans hi⟩
      · refine Or.inr ⟨c :: k, t, by simp [hs], by simp [hk, Ne.symm hc], ?_⟩
        rw [hstep, hi]
        simp only [List.length_cons]
        congr 1
        omega

/-- What one turn of the scanner loop does, by the kind of the line. -/
theorem scanStep_skipped {text : Str} (acc : List RawSecret × List Event)
    (h : skippedLine text) : scanStep acc text = acc := by
  unfold scanStep
  have : text.length = 0 ∨ text.head? = some hash := by
    rcases h with h | h
    · exact Or.inl (by simp [h])
    · exact Or.inr h
  rw [if_pos this]

theorem scanStep_malformed {text : Str} (acc : List RawSecret × List Event)
    (h : malformedLine text) :
    scanStep acc text = (acc.1, acc.2 ++ [Event.stderr (invalidLineWarning text)]) := by
  obtain ⟨hne, hhash, hbad⟩ := h
  unfold scanStep
  have h1 : ¬ (text.length = 0 ∨ text.head? = some hash) := by
    rintro (h | h)
    · exact hne (List.length_eq_zero.1 h)
    · exact hhash h
  have h2 : Index text eq ≤ 0 := by
    unfold Index
    rcases indexFrom_eq_spec text 0 with ⟨_, hi⟩ | ⟨k, t, hs, hk, hi⟩
    · rw [hi]; decide
    · rcases hbad with hbad | hbad
      · exact absurd (by simp [hs]) hbad
      · cases k with
        | nil => rw [hi]; simp
        | cons c k =>
          rw [hs] at hbad
          simp only [List.cons_append, List.head?_cons, Option.some.injEq] at hbad
          exact absurd (hbad ▸ List.mem_cons_self _ _) hk
  rw [if_neg h1]
  simp only [h2, if_true]

theorem scanStep_wellFormed {text : Str} (acc : List RawSecret × List Event)
    (h : wellFormedLine text) :
    ∃ k v, text = k ++ eq ++ v ∧ k ≠ [] ∧ noEq k ∧
      scanStep acc text = (acc.1 ++ [{ Key := k, Value := v }], acc.2) := by
  obtain ⟨hne, hhash, hmem, hhead⟩ := h
  have h1 : ¬ (text.length = 0 ∨ text.head? = some hash) := by
    rintro (h | h)
    · exact hne (List.length_eq_zero.1 h)
    · exact hhash h
  rcases indexFrom_eq_spec text 0 with ⟨hno, _⟩ | ⟨k, t, hs, hk, hi⟩
  · exact absurd hmem hno
  · have hk0 : k ≠ [] := by
      rintro rfl
      rw [hs] at hhead
      simp at hhead
    have hlen : 0 < k.length := List.length_pos.2 hk0
    refine ⟨k, t, by simp [hs, eq], hk0, hk, ?_⟩
    have hidx : Index text eq = (k.length : Int) := by
      unfold Index; rw [hi]; simp
    have h2 : ¬ (Index text eq ≤ 0) := by rw [hidx]; omega
    unfold scanStep
    rw [if_neg h1]
    dsimp only
    rw [if_neg h2, hidx, Int.toNat_ofNat, hs]
    simp

theorem line_cases (text : Str) : skippedLine text ∨ malformedLine text ∨ wellFormedLine text := by
  unfold skippedLine malformedLine wellFormedLine
  by_cases h1 : text = []
  · exact Or.inl (Or.inl h1)
  by_cases h2 : text.head? = some hash
  · exact Or.inl (Or.inr h2)
  by_cases h3 : 61 ∈ text
  · by_cases h4 : text.head? = some 61
    · exact Or.inr (Or.inl ⟨h1, h2, Or.inr h4⟩)
    · exact Or.inr (Or.inr ⟨h1, h2, h3, h4⟩)
  · exact Or.inr (Or.inl ⟨h1, h2, Or.inl h3⟩)

theorem not_wellFormed_of_skipped {text : Str} (h : skippedLine text) : ¬ wellFormedLine text := by
  rintro ⟨h1, h2, _, _⟩
  rcases h with h | h
  · exact h1 h
  · exact h2 h

theorem not_malformed_of_skipped {text : Str} (h : skippedLine text) : ¬ malformedLine text := by
  rintro ⟨h1, h2, _⟩
  rcases h with h | h
  · exact h1 h
  · exact h2 h

theorem not_wellFormed_of_malformed {text : Str} (h : malformedLine text) :
    ¬ wellFormedLine text := by
  rintro ⟨_, _, h3, h4⟩
  rcases h.2.2 with h | h
  · exact h h3
  · exact h4 h

/-- The scanner loop as a whole: the records appended are those of the well
formed lines, in order, and the events appended are the warnings for the
malformed lines, in order. -/
theorem scan_spec : ∀ (lines : List Str) (acc : List RawSecret × List Event),
    ∃ recs : List RawSecret,
      lines.foldl scanStep acc =
        (acc.1 ++ recs,
          acc.2 ++ (lines.filter (fun t => decide (malformedLine t))).map
            (fun t => Event.stderr (invalidLineWarning t))) ∧
      recs.map RawSecret.line = lines.filter (fun t => decide (wellFormedLine t)) ∧
      ∀ r ∈ recs, r.Key ≠ [] ∧ noEq r.Key
  | [], acc => ⟨[], by simp, by simp, by simp⟩
  | text :: rest, acc => by
    rcases line_cases text with h | h | h
    · obtain ⟨recs, h1, h2, h3⟩ := scan_spec rest acc
      refine ⟨recs, ?_, ?_, h3⟩
      · rw [List.foldl_cons, scanStep_skipped acc h, h1]
        simp [List.filter_cons, not_malformed_of_skipped h]
      · rw [h2]
        simp [List.filter_cons, not_wellFormed_of_skipped h]
    · obtain ⟨recs, h1, h2, h3⟩ :=
        scan_spec rest (acc.1, acc.2 ++ [Event.stderr (invalidLineWarning text)])
      refine ⟨recs, ?_, ?_, h3⟩
      · rw [List.foldl_cons, scanStep_malformed acc h, h1]
        simp [List.filter_cons, h]
      · rw [h2]
        simp [List.filter_cons, not_wellFormed_of_malformed h]
    · obtain ⟨k, v, hs, hk0, hk, hstep⟩ := scanStep_wellFormed acc h
      obtain ⟨recs, h1, h2, h3⟩ := scan_spec rest (acc.1 ++ [{ Key := k, Value := v }], acc.2)
      refine ⟨{ Key := k, Value := v } :: recs, ?_, ?_, ?_⟩
      · rw [List.foldl_cons, hstep, h1]
        have hm : ¬ malformedLine text := fun hm => not_wellFormed_of_malformed hm h
        simp [List.filter_cons, hm]
      · rw [List.map_cons, h2, List.filter_cons, if_pos (by simpa using h)]
        simp [RawSecret.line, hs]
      · intro r hr
        rcases List.mem_cons.1 hr with hr | hr
        · subst hr; exact ⟨hk0, hk⟩
        · exact h3 r hr

theorem stderrOf_append (a b : List Event) : stderrOf (a ++ b) = stderrOf a ++ stderrOf b := by
  simp [stderrOf, List.filterMap_append]

theorem stderrOf_warnings (f : Str → Str) (l : List Str) :
    stderrOf (l.map (fun t => Event.stderr (f t))) = l.map f := by
  induction l with
  | nil => rfl
  | cons x xs ih =>
    simp only [List.map_cons]
    rw [← ih]
    rfl

/-- The function `listRaw` on a file that opens and reads without error. -/
theorem listRaw_ok {fs : FileSystem} {file : Str}
    (hopen : (fs file).openErr = none) (hscan : (fs file).scanErr = none) :
    ∃ recs : List RawSecret,
      listRaw fs file =
        (Except.ok recs,
          Event.open file :: ((fs file).lines.filter (fun t => decide (malformedLine t))).map
            (fun t => Event.stderr (invalidLineWarning t))) ∧
      recs.map RawSecret.line = (fs file).lines.filter (fun t => decide (wellFormedLine t)) ∧
      ∀ r ∈ recs, r.Key ≠ [] ∧ noEq r.Key := by
  obtain ⟨recs, h1, h2, h3⟩ := scan_spec (fs file).lines ([], [Event.open file])
  refine ⟨recs, ?_, h2, h3⟩
  unfold listRaw
  rw [hopen, hscan]
  simp only [h1]
  simp

/-- The lines of a file split into the skipped, the malformed and the well
formed ones. -/
theorem count_lines (lines : List Str) :
    (lines.filter (fun t => decide (wellFormedLine t))).length
      + (lines.filter (fun t => decide (malformedLine t))).length
      = (lines.filter (fun t => decide (¬ skippedLine t))).length := by
  induction lines with
  | nil => rfl
  | cons text rest ih =>
    rcases line_cases text with h | h | h
    · simp [List.filter_cons, h, not_malformed_of_skipped h, not_wellFormed_of_skipped h, ih]
    · have hs : ¬ skippedLine text := fun hs => not_malformed_of_skipped hs h
      simp only [List.filter_cons, h, not_wellFormed_of_malformed h, hs, decide_True,
        decide_False, not_false_eq_true, if_true, List.length_cons]
      simp only [Bool.false_eq_true, if_false]
      omega
    · have hs : ¬ skippedLine text := fun hs => not_wellFormed_of_skipped hs h
      have hm : ¬ malformedLine text := fun hm => not_wellFormed_of_malformed hm h
      simp only [List.filter_cons, h, hm, hs, decide_True,
        decide_False, not_false_eq_true, if_true, List.length_cons]
      simp only [Bool.false_eq_true, if_false]
      omega

/-! ## The merge loop of `execLocalRun` -/

theorem callsOf_append (a b : List RawSecret) : callsOf (a ++ b) = callsOf a ++ callsOf b := by
  simp [callsOf]

theorem callsOf_noEq {recs : List RawSecret} (h : ∀ r ∈ recs, noEq r.Key) :
    ∀ c ∈ callsOf recs, noEq c.1 := by
  intro c hc
  obtain ⟨r, hr, rfl⟩ := List.mem_map.1 hc
  exact h r hr

theorem expectedOverwrites_append (base : environ) : ∀ (a earlier b : List RawSecret),
    expectedOverwrites base earlier (a ++ b)
      = expectedOverwrites base earlier a ++ expectedOverwrites base (earlier ++ a) b
  | [], earlier, b => by simp [expectedOverwrites]
  | r :: a, earlier, b => by
    show (if alreadySet base earlier r then [overwriteWarning r.Key] else [])
        ++ expectedOverwrites base (earlier ++ [r]) (a ++ b)
      = expectedOverwrites base earlier (r :: a) ++ expectedOverwrites base (earlier ++ r :: a) b
    rw [expectedOverwrites_append base a (earlier ++ [r]) b]
    simp [expectedOverwrites]

/-- The loop over the records of one file: the environ is the base with all
`Set` calls so far applied, and the events added are the overwrite warnings
for the records whose key was already set. -/
theorem merge_spec (base : environ) : ∀ (recs earlier : List RawSecret) (events : List Event),
    (∀ r ∈ earlier, noEq r.Key) → (∀ r ∈ recs, noEq r.Key) →
    recs.foldl mergeStep (applySets base (callsOf earlier), events)
      = (applySets base (callsOf (earlier ++ recs)),
          events ++ (expectedOverwrites base earlier recs).map Event.stderr)
  | [], earlier, events, _, _ => by simp [expectedOverwrites]
  | r :: rest, earlier, events, he, hr => by
    have hk : noEq r.Key := hr r (List.mem_cons_self _ _)
    have hset : (IsSet (applySets base (callsOf earlier)) r.Key).1 = true
        ↔ alreadySet base earlier r := by
      rw [applySets_isSet hk _ _ (callsOf_noEq he)]
      unfold alreadySet callsOf
      simp
    have he' : ∀ r' ∈ earlier ++ [r], noEq r'.Key := by
      intro r' hr'
      rcases List.mem_append.1 hr' with h | h
      · exact he r' h
      · rw [List.mem_singleton.1 h]; exact hk
    have hstep : mergeStep (applySets base (callsOf earlier), events) r
        = (applySets base (callsOf (earlier ++ [r])),
            events ++ (if alreadySet base earlier r then [overwriteWarning r.Key] else []).map
              Event.stderr) := by
      have hsnd : (IsSet (applySets base (callsOf earlier)) r.Key).2
          = applySets base (callsOf earlier) := rfl
      have hnew : applySets base (callsOf (earlier ++ [r]))
          = Set (applySets base (callsOf earlier)) r.Key r.Value := by
        rw [callsOf_append, applySets_append]; rfl
      unfold mergeStep
      rw [hnew]
      by_cases h : alreadySet base earlier r
      · simp only [hsnd, hset.2 h, h, if_true, List.map_cons, List.map_nil]
      · have hb : (IsSet (applySets base (callsOf earlier)) r.Key).1 = false := by
          cases hb : (IsSet (applySets base (callsOf earlier)) r.Key).1
          · rfl
          · exact absurd (hset.1 hb) h
        simp only [hsnd, hb, h, if_false, List.map_nil, List.append_nil]
        simp
    rw [List.foldl_cons, hstep, merge_spec base rest (earlier ++ [r]) _ he'
      (fun r' h => hr r' (List.mem_cons_of_mem _ h))]
    simp [expectedOverwrites]

/-! ## The loop over the files -/

theorem fileOk_fields {fs : FileSystem} {file : Str} (h : fileOk fs file) :
    (fs file).statErr = none ∧ (fs file).openErr = none ∧ (fs file).scanErr = none := by
  obtain ⟨h1, h2⟩ := h
  refine ⟨h1, ?_, ?_⟩
  · cases ho : (fs file).openErr with
    | none => rfl
    | some err => simp [loads, listRaw, ho] at h2
  · cases ho : (fs file).openErr with
    | some err => simp [loads, listRaw, ho] at h2
    | none =>
      cases hs : (fs file).scanErr with
      | none => rfl
      | some err => simp [loads, listRaw, ho, hs] at h2

theorem fileOk_listRaw {fs : FileSystem} {file : Str} (h : fileOk fs file) :
    listRaw fs file =
        (Except.ok (recordsOf fs file),
          Event.open file :: ((fs file).lines.filter (fun t => decide (malformedLine t))).map
            (fun t => Event.stderr (invalidLineWarning t))) ∧
      (recordsOf fs file).map RawSecret.line
        = (fs file).lines.filter (fun t => decide (wellFormedLine t)) ∧
      ∀ r ∈ recordsOf fs file, r.Key ≠ [] ∧ noEq r.Key := by
  obtain ⟨_, ho, hs⟩ := fileOk_fields h
  obtain ⟨recs, h1, h2, h3⟩ := listRaw_ok ho hs
  have hr : recordsOf fs file = recs := by simp [recordsOf, h1]
  rw [hr]
  exact ⟨h1, h2, h3⟩

theorem allRecords_cons (fs : FileSystem) (file : Str) (rest : List Str) :
    allRecords fs (file :: rest) = recordsOf fs file ++ allRecords fs rest := by
  simp [allRecords]

theorem allRecords_append (fs : FileSystem) (a b : List Str) :
    allRecords fs (a ++ b) = allRecords fs a ++ allRecords fs b := by
  simp [allRecords]

theorem allRecords_noEq {fs : FileSystem} : ∀ {files : List Str},
    (∀ f ∈ files, fileOk fs f) → ∀ r ∈ allRecords fs files, r.Key ≠ [] ∧ noEq r.Key
  | [], _, r, hr => by simp [allRecords] at hr
  | f :: rest, hok, r, hr => by
    rw [allRecords_cons] at hr
    rcases List.mem_append.1 hr with h | h
    · exact (fileOk_listRaw (hok f (List.mem_cons_self _ _))).2.2 r h
    · exact allRecords_noEq (fun g hg => hok g (List.mem_cons_of_mem _ hg)) r h

/-- As long as the files load, the loop goes on: after the files `pre` the
environ is the base with the `Set` calls of their records applied. -/
theorem runFiles_append_ok (fs : FileSystem) (command : Str) (commandArgs : List Str)
    (base : environ) (rest : List Str) : ∀ (pre : List Str) (earlier : List RawSecret)
    (events : List Event), (∀ f ∈ pre, fileOk fs f) → (∀ r ∈ earlier, noEq r.Key) →
    runFiles fs command commandArgs (pre ++ rest) (applySets base (callsOf earlier)) events
      = runFiles fs command commandArgs rest
          (applySets base (callsOf (earlier ++ allRecords fs pre)))
          (events ++ okEvents fs base earlier pre)
  | [], earlier, events, _, _ => by simp [allRecords, okEvents]
  | f :: pre, earlier, events, hok, he => by
    have hf := hok f (List.mem_cons_self _ _)
    obtain ⟨hl, _, hkeys⟩ := fileOk_listRaw hf
    have hv : validateFile fs f = (none, [Event.stat f]) := by
      unfold validateFile; rw [(fileOk_fields hf).1]
    have he' : ∀ r ∈ earlier ++ recordsOf fs f, noEq r.Key := by
      intro r hr
      rcases List.mem_append.1 hr with h | h
      · exact he r h
      · exact (hkeys r h).2
    rw [List.cons_append, runFiles, hv]
    simp only [hl]
    rw [merge_spec base (recordsOf fs f) earlier _ he (fun r hr => (hkeys r hr).2)]
    simp only
    rw [runFiles_append_ok fs command commandArgs base rest pre (earlier ++ recordsOf fs f) _
      (fun g hg => hok g (List.mem_cons_of_mem _ hg)) he']
    rw [allRecords_cons, okEvents]
    simp [List.append_assoc]

theorem fsCalls_append (a b : List Event) : fsCalls (a ++ b) = fsCalls a ++ fsCalls b := by
  simp [fsCalls, List.filter_append]

theorem fsCalls_stderr (l : List Str) : fsCalls (l.map Event.stderr) = [] := by
  induction l with
  | nil => rfl
  | cons x xs ih => simp [fsCalls, List.filter_cons]

theorem fsCalls_warnings (f : Str → Str) (l : List Str) :
    fsCalls (l.map (fun t => Event.stderr (f t))) = [] := by
  have := fsCalls_stderr (l.map f)
  simpa [List.map_map] using this

theorem fsCalls_okEvents (fs : FileSystem) (base : environ) : ∀ (files : List Str)
    (earlier : List RawSecret),
    fsCalls (okEvents fs base earlier files)
      = files.flatMap (fun f => [Event.stat f, Event.open f])
  | [], _ => rfl
  | f :: rest, earlier => by
    rw [okEvents, fsCalls_append, fsCalls_append, fsCalls_append, fsCalls_warnings,
      fsCalls_stderr, fsCalls_okEvents fs base rest]
    simp [fsCalls]

theorem isOverwriteWarning_overwrite (key : Str) :
    isOverwriteWarning (overwriteWarning key) = true := by
  unfold isOverwriteWarning overwriteWarning
  simp only [decide_eq_true_eq, List.append_assoc]
  exact List.prefix_append _ _

theorem isOverwriteWarning_invalid (text : Str) :
    isOverwriteWarning (invalidLineWarning text) = false := by
  unfold isOverwriteWarning invalidLineWarning
  simp only [decide_eq_false_iff_not]
  rintro ⟨t, ht⟩
  simp [bytes] at ht

theorem filter_overwrite_expected (l : List Str) :
    (l.map overwriteWarning).filter isOverwriteWarning = l.map overwriteWarning := by
  induction l with
  | nil => rfl
  | cons x xs ih => simp [List.filter_cons, isOverwriteWarning_overwrite, ih]

theorem expectedOverwrites_filter (base : environ) : ∀ (recs earlier : List RawSecret),
    (expectedOverwrites base earlier recs).filter isOverwriteWarning
      = expectedOverwrites base earlier recs
  | [], _ => rfl
  | r :: rest, earlier => by
    rw [expectedOverwrites, List.filter_append, expectedOverwrites_filter base rest]
    by_cases h : alreadySet base earlier r
    · simp [h, List.filter_cons, isOverwriteWarning_overwrite]
    · simp [h]

theorem filter_invalid (l : List Str) :
    (l.map invalidLineWarning).filter isOverwriteWarning = [] := by
  induction l with
  | nil => rfl
  | cons x xs ih => simp [List.filter_cons, isOverwriteWarning_invalid, ih]

theorem stderrOf_stderr (l : List Str) : stderrOf (l.map Event.stderr) = l := by
  have := stderrOf_warnings id l
  simpa using this

/-- The overwrite warnings of a run over files that all load. -/
theorem overwrites_okEvents (fs : FileSystem) (base : environ) : ∀ (files : List Str)
    (earlier : List RawSecret),
    (stderrOf (okEvents fs base earlier files)).filter isOverwriteWarning
      = expectedOverwrites base earlier (allRecords fs files)
  | [], _ => by simp [okEvents, allRecords, expectedOverwrites, stderrOf]
  | f :: rest, earlier => by
    rw [okEvents, stderrOf_append, stderrOf_append, stderrOf_append, stderrOf_warnings,
      stderrOf_stderr, List.filter_append, List.filter_append, List.filter_append,
      overwrites_okEvents fs base rest, filter_invalid, expectedOverwrites_filter,
      allRecords_cons, expectedOverwrites_append]
    simp [stderrOf]

/-- With `dashIx` the number of files, the first statement of `execLocalRun`
splits `args` into the files, the command and its arguments. -/
theorem execLocalRun_split (fs : FileSystem) (base : environ) (files : List Str)
    (command : Str) (commandArgs : List Str) :
    execLocalRun fs base (files ++ command :: commandArgs) (files.length : Int)
      = runFiles fs command commandArgs files base [] := by
  unfold execLocalRun
  have h : (0 : Int) ≤ (files.length : Int)
      ∧ (files.length : Int) < ((files ++ command :: commandArgs).length : Nat) := by
    constructor
    · omega
    · simp only [List.length_append, List.length_cons]; omega
  rw [if_pos h]
  have hget : (files ++ command :: commandArgs).getD files.length [] = command := by
    rw [List.getD_eq_getElem?_getD, List.getElem?_append_right (Nat.le_refl _)]
    simp
  simp only [Int.toNat_ofNat, hget]
  simp

/-- A run over files that all load ends in `exec`, with the merged environ. -/
theorem runFiles_ok (fs : FileSystem) (command : Str) (commandArgs : List Str)
    (base : environ) (files : List Str) (hok : ∀ f ∈ files, fileOk fs f) :
    runFiles fs command commandArgs files base []
      = (Outcome.exec command commandArgs (applySets base (callsOf (allRecords fs files))),
          okEvents fs base [] files) := by
  have := runFiles_append_ok fs command commandArgs base [] files [] [] hok (by simp)
  simpa [callsOf, applySets, runFiles] using this

/-! ## Keys of entries -/

theorem takeWhile_append_stop (k t : Str) :
    (k ++ 61 :: t).takeWhile (fun c => c != 61) = k.takeWhile (fun c => c != 61) := by
  induction k with
  | nil => simp [List.takeWhile_cons]
  | cons c k ih =>
    simp only [List.cons_append, List.takeWhile_cons]
    split
    · rw [ih]
    · rfl

theorem entryKey_of_beginsWith {s k : Str} (h : beginsWith s k) :
    entryKey s = some (k.takeWhile (fun c => c != 61)) := by
  obtain ⟨t, ht⟩ := h
  have hs : s = k ++ 61 :: t := by rw [← ht]; simp [eq]
  unfold entryKey
  rw [if_pos (by rw [hs]; simp), hs, takeWhile_append_stop]

theorem beginsWith_of_entryKey : ∀ {s k : Str}, entryKey s = some k → beginsWith s k
  | [], k, h => by simp [entryKey] at h
  | c :: s, k, h => by
    unfold entryKey at h
    by_cases hm : 61 ∈ c :: s
    · rw [if_pos hm] at h
      by_cases hc : c = 61
      · subst hc
        simp only [List.takeWhile_cons, bne_self_eq_false, Bool.false_eq_true, if_false,
          Option.some.injEq] at h
        subst h
        exact ⟨s, rfl⟩
      · have hm' : 61 ∈ s := by
          rcases List.mem_cons.1 hm with h' | h'
          · exact absurd h'.symm hc
          · exact h'
        have hne : (c != 61) = true := by simpa using hc
        simp only [List.takeWhile_cons, hne, if_true, Option.some.injEq] at h
        have ih : beginsWith s (s.takeWhile (fun c => c != 61)) :=
          beginsWith_of_entryKey (by unfold entryKey; rw [if_pos hm'])
        obtain ⟨t, ht⟩ := ih
        refine ⟨t, ?_⟩
        rw [← h]
        simp only [List.cons_append, List.cons.injEq, true_and]
        exact ht
    · rw [if_neg hm] at h
      cases h

/-- The two ways of saying that the keys are unique agree. -/
theorem noSharedKey_iff_uniqueKeys (e : environ) : NoSharedKey e ↔ UniqueKeys e := by
  constructor
  · intro h k
    by_contra hgt
    have hlen : 2 ≤ (e.filter (fun s => decide (beginsWith s k))).length := by
      rw [← List.countP_eq_length_filter]; omega
    obtain ⟨a, b, rest, hf⟩ : ∃ a b rest, e.filter (fun s => decide (beginsWith s k))
        = a :: b :: rest := by
      match hf : e.filter (fun s => decide (beginsWith s k)), hlen with
      | a :: b :: rest, _ => exact ⟨a, b, rest, rfl⟩
      | [_], h2 => simp at h2
      | [], h2 => simp at h2
    have ha : a ∈ e.filter (fun s => decide (beginsWith s k)) := by rw [hf]; simp
    have hb : b ∈ e.filter (fun s => decide (beginsWith s k)) := by rw [hf]; simp
    have ha' : beginsWith a k := by simpa using (List.mem_filter.1 ha).2
    have hb' : beginsWith b k := by simpa using (List.mem_filter.1 hb).2
    have hsub : (a :: b :: rest).Sublist e := hf ▸ List.filter_sublist e
    have hp := List.Pairwise.sublist hsub h
    have hab := (List.pairwise_cons.1 hp).1 b (List.mem_cons_self _ _)
    rw [entryKey_of_beginsWith ha', entryKey_of_beginsWith hb'] at hab
    simp at hab
  · intro h
    unfold NoSharedKey
    rw [List.pairwise_iff_forall_sublist]
    intro a b hsub
    by_contra hcon
    rw [not_or] at hcon
    obtain ⟨h1, h2⟩ := hcon
    obtain ⟨k, hk⟩ := Option.ne_none_iff_exists'.1 h1
    have hkb : entryKey b = some k := by
      have := not_not.1 h2
      rw [← this]; exact hk
    have ha := beginsWith_of_entryKey hk
    have hb := beginsWith_of_entryKey hkb
    have hc := hsub.countP_le (fun s => decide (beginsWith s k))
    have h2' : [a, b].countP (fun s => decide (beginsWith s k)) = 2 := by
      simp [List.countP_cons, ha, hb]
    have := h k
    omega

theorem uniqueKeys_nil : UniqueKeys [] := fun _ => by simp

theorem uniqueKeys_singleton (s : Str) : UniqueKeys [s] := fun k => by
  simp only [List.countP_cons, List.countP_nil]
  split <;> omega

/-! ## A file that fails -/

/-- The events of `listRaw`: the call of `os.Open`, then warnings for
malformed lines only. -/
theorem listRaw_events (fs : FileSystem) (file : Str) :
    ∃ ws : List Str, (listRaw fs file).2
      = Event.open file :: ws.map (fun t => Event.stderr (invalidLineWarning t)) := by
  unfold listRaw
  cases ho : (fs file).openErr with
  | some err => exact ⟨[], by simp⟩
  | none =>
    obtain ⟨recs, h1, _, _⟩ := scan_spec (fs file).lines ([], [Event.open file])
    refine ⟨(fs file).lines.filter (fun t => decide (malformedLine t)), ?_⟩
    cases hs : (fs file).scanErr with
    | some err => simp [h1]
    | none => simp [h1]

theorem fsCalls_listRaw (fs : FileSystem) (file : Str) :
    fsCalls (listRaw fs file).2 = [Event.open file] := by
  obtain ⟨ws, h⟩ := listRaw_events fs file
  rw [h]
  have := fsCalls_warnings invalidLineWarning ws
  simp only [fsCalls, List.filter_cons] at this ⊢
  simp [this]

theorem runFiles_fail_stat (fs : FileSystem) (command : Str) (commandArgs : List Str)
    (f : Str) (post : List Str) (env : environ) (events : List Event) {err : GoError}
    (h : (validateFile fs f).1 = some err) :
    runFiles fs command commandArgs (f :: post) env events
      = (Outcome.error (GoError.wrap err (bytes "Failed to validate file")),
          events ++ [Event.stat f]) := by
  have hv : validateFile fs f = (some err, [Event.stat f]) := by
    unfold validateFile at h ⊢
    simp only at h
    rw [h]
  rw [runFiles, hv]

theorem runFiles_fail_list (fs : FileSystem) (command : Str) (commandArgs : List Str)
    (f : Str) (post : List Str) (env : environ) (events : List Event) {err : GoError}
    (hv : (validateFile fs f).1 = none) (h : (listRaw fs f).1 = Except.error err) :
    runFiles fs command commandArgs (f :: post) env events
      = (Outcome.error (GoError.wrap err (bytes "Failed to list file contents")),
          events ++ [Event.stat f] ++ (listRaw fs f).2) := by
  have hv' : validateFile fs f = (none, [Event.stat f]) := by
    unfold validateFile at hv ⊢
    simp only at hv
    rw [hv]
  have hl : listRaw fs f = (Except.error err, (listRaw fs f).2) := by
    rw [← h]
  rw [runFiles, hv']
  simp only
  rw [hl]

/-- A file that is not loaded fails in `validateFile` or in `listRaw`. -/
theorem not_fileOk_cases {fs : FileSystem} {f : Str} (h : ¬ fileOk fs f) :
    (∃ err, (validateFile fs f).1 = some err) ∨
    ((validateFile fs f).1 = none ∧ ∃ err, (listRaw fs f).1 = Except.error err) := by
  cases hv : (validateFile fs f).1 with
  | some err => exact Or.inl ⟨err, rfl⟩
  | none =>
    refine Or.inr ⟨rfl, ?_⟩
    cases hl : (listRaw fs f).1 with
    | error err => exact ⟨err, rfl⟩
    | ok recs =>
      exfalso
      apply h
      exact ⟨hv, by simp [loads, hl]⟩

/-- Among files that do not all load there is a first one that fails. -/
theorem first_failure (fs : FileSystem) : ∀ (files : List Str),
    ¬ (∀ f ∈ files, fileOk fs f) →
    ∃ pre f post, files = pre ++ f :: post ∧ (∀ g ∈ pre, fileOk fs g) ∧ ¬ fileOk fs f
  | [], h => absurd (by simp) h
  | f :: rest, h => by
    by_cases hf : fileOk fs f
    · have hrest : ¬ (∀ g ∈ rest, fileOk fs g) := by
        intro hall
        apply h
        intro g hg
        rcases List.mem_cons.1 hg with hg | hg
        · rw [hg]; exact hf
        · exact hall g hg
      obtain ⟨pre, f', post, hsplit, hpre, hbad⟩ := first_failure fs rest hrest
      refine ⟨f :: pre, f', post, by rw [hsplit]; rfl, ?_, hbad⟩
      intro g hg
      rcases List.mem_cons.1 hg with hg | hg
      · rw [hg]; exact hf
      · exact hpre g hg
    · exact ⟨[], f, rest, rfl, by simp, hf⟩

/-- The run up to the first file that fails. -/
theorem runFiles_upto (fs : FileSystem) (command : Str) (commandArgs : List Str)
    (base : environ) (pre : List Str) (f : Str) (post : List Str)
    (hpre : ∀ g ∈ pre, fileOk fs g) :
    runFiles fs command commandArgs (pre ++ f :: post) base []
      = runFiles fs command commandArgs (f :: post)
          (applySets base (callsOf (allRecords fs pre))) (okEvents fs base [] pre) := by
  have := runFiles_append_ok fs command commandArgs base (f :: post) pre [] [] hpre (by simp)
  simpa [callsOf, applySets] using this

/-! ## The claims -/

/-- C1. Last write wins in the merge of `execLocalRun`: when no two entries
of the base environ begin with the same `KEY=` and all files load, then for
the last record `r` with its key (files in the caller's order, records in
line order) the environ handed to `exec` has exactly one entry beginning
with `r.Key=`, namely `r.Key=r.Value`. -/
theorem C1_last_write_wins (fs : FileSystem) (base : environ) (files : List Str)
    (command : Str) (commandArgs : List Str) (pre post : List RawSecret) (r : RawSecret)
    (hbase : UniqueKeys base) (hok : ∀ f ∈ files, fileOk fs f)
    (hrecs : allRecords fs files = pre ++ r :: post)
    (hlast : ∀ r' ∈ post, r'.Key ≠ r.Key) :
    ∃ env, (execLocalRun fs base (files ++ command :: commandArgs) (files.length : Int)).1
        = Outcome.exec command commandArgs env ∧
      env.filter (fun s => decide (beginsWith s r.Key)) = [r.Key ++ eq ++ r.Value] := by
  refine ⟨applySets base (callsOf (allRecords fs files)), ?_, ?_⟩
  · rw [execLocalRun_split, runFiles_ok fs command commandArgs base files hok]
  · have hkeys := allRecords_noEq hok
    rw [hrecs] at hkeys ⊢
    have hpre : ∀ c ∈ callsOf pre, noEq c.1 :=
      callsOf_noEq (fun r' h => (hkeys r' (List.mem_append_left _ h)).2)
    have hpost : ∀ c ∈ callsOf post, noEq c.1 :=
      callsOf_noEq (fun r' h =>
        (hkeys r' (List.mem_append_right _ (List.mem_cons_of_mem _ h))).2)
    have hk : noEq r.Key :=
      (hkeys r (List.mem_append_right _ (List.mem_cons_self _ _))).2
    have hl : ∀ c ∈ callsOf post, c.1 ≠ r.Key := by
      intro c hc
      obtain ⟨r', hr', rfl⟩ := List.mem_map.1 hc
      exact hlast r' hr'
    have := applySets_filter_last base (callsOf pre) (callsOf post) r.Key r.Value
      hbase hpre hk hpost hl
    simpa [callsOf] using this

/-- C1, on the run of the specification: base `A=1`, `file1` with `A=2`,
`file2` with `A=3`. -/
theorem C1_last_write_wins_witness :
    UniqueKeys [bytes "A=1"] ∧
    ∃ env, (execLocalRun demoFs [bytes "A=1"]
        ([bytes "file1", bytes "file2"] ++ bytes "printenv" :: [bytes "A"])
        (([bytes "file1", bytes "file2"] : List Str).length : Int)).1
        = Outcome.exec (bytes "printenv") [bytes "A"] env ∧
      env.filter (fun s => decide (beginsWith s (bytes "A"))) = [bytes "A" ++ eq ++ bytes "3"] :=
  ⟨uniqueKeys_singleton _,
    C1_last_write_wins demoFs [bytes "A=1"] [bytes "file1", bytes "file2"] (bytes "printenv")
      [bytes "A"] [{ Key := bytes "A", Value := bytes "2" }] []
      { Key := bytes "A", Value := bytes "3" }
      (uniqueKeys_singleton _) (by decide) (by decide) (by simp)⟩

/-- The end-to-end run of the specification: empty base environ, a file
holding `PORT=8080`, command `printenv PORT`. -/
theorem run_port_example :
    execLocalRun demoFs [] [bytes "port.env", bytes "printenv", bytes "PORT"] 1
      = (Outcome.exec (bytes "printenv") [bytes "PORT"] [bytes "PORT=8080"],
          [Event.stat (bytes "port.env"), Event.open (bytes "port.env")]) := by
  decide

/-- C2. Exactly one overwrite warning per overwrite event: in a run whose
files all load, the overwrite warnings written to standard error are, in
record order, one `warning: overwriting environment variable <KEY>` for each
record whose key is already set when its turn comes (`IsSet` holds on the
base environ, or an earlier record has the same key), and no others. -/
theorem C2_overwrite_warnings (fs : FileSystem) (base : environ) (files : List Str)
    (command : Str) (commandArgs : List Str) (hok : ∀ f ∈ files, fileOk fs f) :
    (stderrOf (execLocalRun fs base (files ++ command :: commandArgs)
        (files.length : Int)).2).filter isOverwriteWarning
      = expectedOverwrites base [] (allRecords fs files) := by
  rw [execLocalRun_split, runFiles_ok fs command commandArgs base files hok]
  exact overwrites_okEvents fs base files []

/-- C2, on the run of the specification: base `A=1`, `file1` with `A=2`,
`file2` with `A=3` give two warnings, both naming `A`. -/
theorem C2_overwrite_warnings_witness :
    (∀ f ∈ [bytes "file1", bytes "file2"], fileOk demoFs f) ∧
    (stderrOf (execLocalRun demoFs [bytes "A=1"]
        ([bytes "file1", bytes "file2"] ++ bytes "printenv" :: [bytes "A"])
        (([bytes "file1", bytes "file2"] : List Str).length : Int)).2).filter isOverwriteWarning
      = [overwriteWarning (bytes "A"), overwriteWarning (bytes "A")] :=
  ⟨by decide,
    (C2_overwrite_warnings demoFs [bytes "A=1"] [bytes "file1", bytes "file2"]
      (bytes "printenv") [bytes "A"] (by decide)).trans (by decide)⟩

/-- The merge keeps the keys unique: when no two entries of the base environ
share the same key and all files load, no two entries of the environ handed
to `exec` share the same key. -/
theorem run_noSharedKey (fs : FileSystem) (base : environ) (files : List Str)
    (command : Str) (commandArgs : List Str)
    (hbase : NoSharedKey base) (hok : ∀ f ∈ files, fileOk fs f) :
    ∃ env, (execLocalRun fs base (files ++ command :: commandArgs) (files.length : Int)).1
        = Outcome.exec command commandArgs env ∧ NoSharedKey env := by
  refine ⟨applySets base (callsOf (allRecords fs files)), ?_, ?_⟩
  · rw [execLocalRun_split, runFiles_ok fs command commandArgs base files hok]
  · rw [noSharedKey_iff_uniqueKeys] at hbase ⊢
    exact applySets_uniqueKeys _ _ hbase
      (callsOf_noEq (fun r hr => (allRecords_noEq hok r hr).2))

/-- C4, as stated, fails for keys with `=`: after `Set("A", "B=1")` on the
empty environ `IsSet("A=B")` holds although `A=B` was never set, and after
`Set("A=B", "1")` `IsSet("A")` holds although `A` was never set. -/
theorem C4_set_sequence_counterexample :
    ((IsSet (applySets [] [(bytes "A", bytes "B=1")]) (bytes "A=B")).1 = true ∧
      ¬ ∃ c ∈ [(bytes "A", bytes "B=1")], c.1 = bytes "A=B") ∧
    ((IsSet (applySets [] [(bytes "A=B", bytes "1")]) (bytes "A")).1 = true ∧
      ¬ ∃ c ∈ [(bytes "A=B", bytes "1")], c.1 = bytes "A") := by
  decide

/-- C4, amended. For every sequence of `Set` calls with `=`-free keys on the
empty environ and every string `k`: if `k` has no `=`, `IsSet(k)` holds
afterwards iff `k` was the key of a call; when `k` was the key of a call, the
environ contains `k=v` for the value `v` of the last call with key `k`; and
at most one entry begins with `k=`. -/
theorem C4_set_sequence (calls : List (Str × Str)) (k : Str)
    (hcalls : ∀ c ∈ calls, noEq c.1) :
    (noEq k → ((IsSet (applySets [] calls) k).1 = true ↔ ∃ c ∈ calls, c.1 = k)) ∧
    (∀ pre v post, calls = pre ++ (k, v) :: post → (∀ c ∈ post, c.1 ≠ k) →
      (k ++ eq ++ v) ∈ applySets [] calls) ∧
    (applySets [] calls).countP (fun s => decide (beginsWith s k)) ≤ 1 := by
  refine ⟨?_, ?_, ?_⟩
  · intro hk
    rw [applySets_isSet hk calls [] hcalls]
    simp [IsSet]
  · intro pre v post hsplit hlast
    subst hsplit
    have hk : noEq k := hcalls (k, v) (by simp)
    have hf := applySets_filter_last [] pre post k v
      uniqueKeys_nil (fun c hc => hcalls c (by simp [hc])) hk
      (fun c hc => hcalls c (by simp [hc])) hlast
    have hm : (k ++ eq ++ v) ∈ (applySets [] (pre ++ (k, v) :: post)).filter
        (fun s => decide (beginsWith s k)) := by rw [hf]; simp
    exact (List.mem_filter.1 hm).1
  · exact applySets_uniqueKeys calls [] uniqueKeys_nil hcalls k

/-- C4, amended, on the calls `Set("A","1")`, `Set("B","2")`, `Set("A","3")`
and the key `A`. -/
theorem C4_set_sequence_witness :
    (∀ c ∈ [(bytes "A", bytes "1"), (bytes "B", bytes "2"), (bytes "A", bytes "3")],
      noEq c.1) ∧
    (bytes "A" ++ eq ++ bytes "3") ∈
      applySets [] [(bytes "A", bytes "1"), (bytes "B", bytes "2"), (bytes "A", bytes "3")] :=
  ⟨by decide,
    (C4_set_sequence [(bytes "A", bytes "1"), (bytes "B", bytes "2"), (bytes "A", bytes "3")]
      (bytes "A") (by decide)).2.1
      [(bytes "A", bytes "1"), (bytes "B", bytes "2")] (bytes "3") [] rfl (by simp)⟩

/-- C5, as stated, fails: on the environ `A=1`, `A=2` the call `Unset("A")`
removes the first entry only, and `IsSet("A")` still holds. -/
theorem C5_unset_isSet_counterexample :
    Unset [bytes "A=1", bytes "A=2"] (bytes "A") = [bytes "A=2"] ∧
    (IsSet (Unset [bytes "A=1", bytes "A=2"] (bytes "A")) (bytes "A")).1 = true := by
  decide

/-- C5, amended. For every environ in which at most one entry begins with
`k=`, after `Unset(k)` the call `IsSet(k)` returns false. -/
theorem C5_unset_isSet (e : environ) (k : Str)
    (h : e.countP (fun s => decide (beginsWith s k)) ≤ 1) :
    (IsSet (Unset e k) k).1 = false := by
  have h0 : (Unset e k).countP (fun s => decide (beginsWith s k)) = 0 := by
    rw [countP_Unset_self]; omega
  cases hb : (IsSet (Unset e k) k).1
  · rfl
  · obtain ⟨s, hs, hbw⟩ := (IsSet_iff _ _).1 hb
    have hpos : 0 < (Unset e k).countP (fun s => decide (beginsWith s k)) :=
      List.countP_pos_iff.2 ⟨s, hs, by simpa using hbw⟩
    omega

/-- C5, amended, on the environ `A=1`, `B=2` and the key `A`. -/
theorem C5_unset_isSet_witness :
    [bytes "A=1", bytes "B=2"].countP (fun s => decide (beginsWith s (bytes "A"))) ≤ 1 ∧
    (IsSet (Unset [bytes "A=1", bytes "B=2"] (bytes "A")) (bytes "A")).1 = false :=
  ⟨by decide, C5_unset_isSet [bytes "A=1", bytes "B=2"] (bytes "A") (by decide)⟩

/-- C6. The file loader splits only at the first `=`: for a key `k` that is
not empty, has no `=` and does not start with `#`, and any value `v`,
`listRaw` on a file whose single line is `k=v` returns exactly the record
with `Key = k` and `Value = v`, and writes no warning. -/
theorem C6_split_at_first_eq (fs : FileSystem) (file k v : Str)
    (hk0 : k ≠ []) (hk : noEq k) (hhash : k.head? ≠ some hash)
    (hopen : (fs file).openErr = none) (hlines : (fs file).lines = [k ++ eq ++ v])
    (hscan : (fs file).scanErr = none) :
    listRaw fs file = (Except.ok [{ Key := k, Value := v }], [Event.open file]) := by
  have hwf : wellFormedLine (k ++ eq ++ v) := by
    cases k with
    | nil => exact absurd rfl hk0
    | cons c k =>
      refine ⟨by simp, ?_, by simp [eq], ?_⟩
      · simpa using hhash
      · simp only [List.cons_append, List.head?_cons, ne_eq, Option.some.injEq]
        intro hc
        exact hk (hc ▸ List.mem_cons_self _ _)
  obtain ⟨k', v', hs, _, hk', hstep⟩ := scanStep_wellFormed ([], [Event.open file]) hwf
  have hsplit : k = k' ∧ v = v' := by
    apply split_unique hk hk'
    simpa [eq] using hs
  unfold listRaw
  rw [hopen, hlines, hscan]
  simp only [List.foldl_cons, List.foldl_nil, hstep]
  rw [hsplit.1, hsplit.2]
  rfl

/-- C6, on the line `URL=http://x?a=1`. -/
theorem C6_split_at_first_eq_witness :
    (bytes "URL" ≠ [] ∧ noEq (bytes "URL") ∧ (bytes "URL").head? ≠ some hash) ∧
    listRaw demoFs (bytes "url.env")
      = (Except.ok [{ Key := bytes "URL", Value := bytes "http://x?a=1" }],
          [Event.open (bytes "url.env")]) :=
  ⟨by decide,
    C6_split_at_first_eq demoFs (bytes "url.env") (bytes "URL") (bytes "http://x?a=1")
      (by decide) (by decide) (by decide) (by decide) (by decide) (by decide)⟩

/-- C7. For a file that opens and reads without error, `listRaw` returns
records that stand, in line order, for exactly the well formed lines (not
empty, not starting with `#`, with a first `=` that is not the first byte):
`Key`, `=`, `Value` put together give the lines verbatim, and every `Key`
is non-empty and has no `=`. -/
theorem C7_records_of_lines (fs : FileSystem) (file : Str)
    (hopen : (fs file).openErr = none) (hscan : (fs file).scanErr = none) :
    ∃ recs : List RawSecret, (listRaw fs file).1 = Except.ok recs ∧
      recs.map (fun r => r.Key ++ eq ++ r.Value)
        = (fs file).lines.filter (fun t => decide (wellFormedLine t)) ∧
      ∀ r ∈ recs, r.Key ≠ [] ∧ 61 ∉ r.Key := by
  obtain ⟨recs, h1, h2, h3⟩ := listRaw_ok hopen hscan
  exact ⟨recs, by rw [h1], h2, h3⟩

/-- C7, on the file `# comment`, blank, `FOO=bar`, `invalidline`. -/
theorem C7_records_of_lines_witness :
    ((demoFs (bytes "mixed.env")).openErr = none ∧ (demoFs (bytes "mixed.env")).scanErr = none) ∧
    ∃ recs : List RawSecret, (listRaw demoFs (bytes "mixed.env")).1 = Except.ok recs ∧
      recs.map (fun r => r.Key ++ eq ++ r.Value)
        = (demoFs (bytes "mixed.env")).lines.filter (fun t => decide (wellFormedLine t)) ∧
      ∀ r ∈ recs, r.Key ≠ [] ∧ 61 ∉ r.Key :=
  ⟨by decide, C7_records_of_lines demoFs (bytes "mixed.env") (by decide) (by decide)⟩

/-- C8, amended. Malformed lines are warnings, never failures: on a file that
opens and that the scanner reads without error (`scanner.Err()` is nil: no
I/O error and no line of 64 KiB or more) `listRaw` returns records and no
error; it writes
`warning: invalid line in file "<line>"` exactly for the malformed lines
(not empty, not starting with `#`, and without `=` or starting with `=`), in
order; the records are those of all well formed lines; and the records and
the warnings together are as many as the lines that are neither empty nor
start with `#`. -/
theorem C8_malformed_lines (fs : FileSystem) (file : Str)
    (hopen : (fs file).openErr = none) (hscan : (fs file).scanErr = none) :
    ∃ recs : List RawSecret, (listRaw fs file).1 = Except.ok recs ∧
      stderrOf (listRaw fs file).2
        = ((fs file).lines.filter (fun t => decide (malformedLine t))).map invalidLineWarning ∧
      recs.map RawSecret.line = (fs file).lines.filter (fun t => decide (wellFormedLine t)) ∧
      recs.length + (stderrOf (listRaw fs file).2).length
        = ((fs file).lines.filter (fun t => decide (¬ skippedLine t))).length := by
  obtain ⟨recs, h1, h2, _⟩ := listRaw_ok hopen hscan
  have hst : stderrOf (listRaw fs file).2
      = ((fs file).lines.filter (fun t => decide (malformedLine t))).map invalidLineWarning := by
    rw [h1]
    have := stderrOf_warnings invalidLineWarning
      ((fs file).lines.filter (fun t => decide (malformedLine t)))
    simpa [stderrOf] using this
  refine ⟨recs, by rw [h1], hst, h2, ?_⟩
  rw [hst, List.length_map, ← count_lines, ← h2, List.length_map]

/-- C8, amended, on the file `# comment`, blank, `FOO=bar`, `invalidline`: one record
`FOO` → `bar` and one warning. -/
theorem C8_malformed_lines_witness :
    ((demoFs (bytes "mixed.env")).openErr = none ∧ (demoFs (bytes "mixed.env")).scanErr = none) ∧
    (∃ recs : List RawSecret, (listRaw demoFs (bytes "mixed.env")).1 = Except.ok recs ∧
      stderrOf (listRaw demoFs (bytes "mixed.env")).2
        = ((demoFs (bytes "mixed.env")).lines.filter
            (fun t => decide (malformedLine t))).map invalidLineWarning ∧
      recs.map RawSecret.line
        = (demoFs (bytes "mixed.env")).lines.filter (fun t => decide (wellFormedLine t)) ∧
      recs.length + (stderrOf (listRaw demoFs (bytes "mixed.env")).2).length
        = ((demoFs (bytes "mixed.env")).lines.filter (fun t => decide (¬ skippedLine t))).length) ∧
    listRaw demoFs (bytes "mixed.env")
      = (Except.ok [{ Key := bytes "FOO", Value := bytes "bar" }],
          [Event.open (bytes "mixed.env"),
            Event.stderr (bytes "warning: invalid line in file \"invalidline\"\n")]) :=
  ⟨by decide, C8_malformed_lines demoFs (bytes "mixed.env") (by decide) (by decide), by rfl⟩

/-- C9. No process replacement after a file failure: `execLocalRun` ends in
`exec` iff every listed file passes `validateFile` and is loaded by `listRaw`
without error; otherwise, with `f` the first file in caller order that fails,
it returns the error of `f`, wrapped with `Failed to validate file` when
`validateFile` failed and with `Failed to list file contents` when `listRaw`
failed, and the calls into the file system are those for the files before
`f` and for `f` itself, none for a later file. -/
theorem C9_no_exec_after_failure (fs : FileSystem) (base : environ) (files : List Str)
    (command : Str) (commandArgs : List Str) :
    ((∀ f ∈ files, fileOk fs f) ↔
      ∃ env, (execLocalRun fs base (files ++ command :: commandArgs) (files.length : Int)).1
        = Outcome.exec command commandArgs env) ∧
    (∀ pre f post, files = pre ++ f :: post → (∀ g ∈ pre, fileOk fs g) → ¬ fileOk fs f →
      (∃ err, (validateFile fs f).1 = some err ∧
        (execLocalRun fs base (files ++ command :: commandArgs) (files.length : Int)).1
          = Outcome.error (GoError.wrap err (bytes "Failed to validate file")) ∧
        fsCalls (execLocalRun fs base (files ++ command :: commandArgs) (files.length : Int)).2
          = pre.flatMap (fun g => [Event.stat g, Event.open g]) ++ [Event.stat f]) ∨
      (∃ err, (validateFile fs f).1 = none ∧ (listRaw fs f).1 = Except.error err ∧
        (execLocalRun fs base (files ++ command :: commandArgs) (files.length : Int)).1
          = Outcome.error (GoError.wrap err (bytes "Failed to list file contents")) ∧
        fsCalls (execLocalRun fs base (files ++ command :: commandArgs) (files.length : Int)).2
          = pre.flatMap (fun g => [Event.stat g, Event.open g])
              ++ [Event.stat f, Event.open f])) := by
  have hfail : ∀ pre f post, files = pre ++ f :: post → (∀ g ∈ pre, fileOk fs g) →
      ¬ fileOk fs f →
      (∃ err, (validateFile fs f).1 = some err ∧
        (execLocalRun fs base (files ++ command :: commandArgs) (files.length : Int)).1
          = Outcome.error (GoError.wrap err (bytes "Failed to validate file")) ∧
        fsCalls (execLocalRun fs base (files ++ command :: commandArgs) (files.length : Int)).2
          = pre.flatMap (fun g => [Event.stat g, Event.open g]) ++ [Event.stat f]) ∨
      (∃ err, (validateFile fs f).1 = none ∧ (listRaw fs f).1 = Except.error err ∧
        (execLocalRun fs base (files ++ command :: commandArgs) (files.length : Int)).1
          = Outcome.error (GoError.wrap err (bytes "Failed to list file contents")) ∧
        fsCalls (execLocalRun fs base (files ++ command :: commandArgs) (files.length : Int)).2
          = pre.flatMap (fun g => [Event.stat g, Event.open g])
              ++ [Event.stat f, Event.open f]) := by
    intro pre f post hsplit hpre hbad
    rw [execLocalRun_split, hsplit, runFiles_upto fs command commandArgs base pre f post hpre]
    rcases not_fileOk_cases hbad with ⟨err, hv⟩ | ⟨hv, err, hl⟩
    · refine Or.inl ⟨err, hv, ?_, ?_⟩
      · rw [runFiles_fail_stat fs command commandArgs f post _ _ hv]
      · rw [runFiles_fail_stat fs command commandArgs f post _ _ hv]
        simp only [fsCalls_append, fsCalls_okEvents]
        rfl
    · refine Or.inr ⟨err, hv, hl, ?_, ?_⟩
      · rw [runFiles_fail_list fs command commandArgs f post _ _ hv hl]
      · rw [runFiles_fail_list fs command commandArgs f post _ _ hv hl]
        simp only [fsCalls_append, fsCalls_okEvents, fsCalls_listRaw, List.append_assoc]
        rfl
  refine ⟨⟨?_, ?_⟩, hfail⟩
  · intro hok
    exact ⟨_, by rw [execLocalRun_split, runFiles_ok fs command commandArgs base files hok]⟩
  · rintro ⟨env, henv⟩
    by_contra hnot
    obtain ⟨pre, f, post, hsplit, hpre, hbad⟩ := first_failure fs files hnot
    rcases hfail pre f post hsplit hpre hbad with ⟨err, _, h, _⟩ | ⟨err, _, _, h, _⟩
    · rw [henv] at h; cases h
    · rw [henv] at h; cases h

/-- C9, on the files `file1`, `nope.env` (missing), `file2`: the run returns
the validation error of `nope.env` and never touches `file2`. -/
theorem C9_no_exec_after_failure_witness :
    ((∀ g ∈ [bytes "file1"], fileOk demoFs g) ∧ ¬ fileOk demoFs (bytes "nope.env")) ∧
    ((∃ err, (validateFile demoFs (bytes "nope.env")).1 = some err ∧
        (execLocalRun demoFs [] ([bytes "file1", bytes "nope.env", bytes "file2"]
            ++ bytes "printenv" :: [])
          (([bytes "file1", bytes "nope.env", bytes "file2"] : List Str).length : Int)).1
          = Outcome.error (GoError.wrap err (bytes "Failed to validate file")) ∧
        fsCalls (execLocalRun demoFs [] ([bytes "file1", bytes "nope.env", bytes "file2"]
            ++ bytes "printenv" :: [])
          (([bytes "file1", bytes "nope.env", bytes "file2"] : List Str).length : Int)).2
          = [bytes "file1"].flatMap (fun g => [Event.stat g, Event.open g])
              ++ [Event.stat (bytes "nope.env")]) ∨
      (∃ err, (validateFile demoFs (bytes "nope.env")).1 = none ∧
        (listRaw demoFs (bytes "nope.env")).1 = Except.error err ∧
        (execLocalRun demoFs [] ([bytes "file1", bytes "nope.env", bytes "file2"]
            ++ bytes "printenv" :: [])
          (([bytes "file1", bytes "nope.env", bytes "file2"] : List Str).length : Int)).1
          = Outcome.error (GoError.wrap err (bytes "Failed to list file contents")) ∧
        fsCalls (execLocalRun demoFs [] ([bytes "file1", bytes "nope.env", bytes "file2"]
            ++ bytes "printenv" :: [])
          (([bytes "file1", bytes "nope.env", bytes "file2"] : List Str).length : Int)).2
          = [bytes "file1"].flatMap (fun g => [Event.stat g, Event.open g])
              ++ [Event.stat (bytes "nope.env"), Event.open (bytes "nope.env")])) :=
  ⟨by decide,
    (C9_no_exec_after_failure demoFs [] [bytes "file1", bytes "nope.env", bytes "file2"]
      (bytes "printenv") []).2 [bytes "file1"] (bytes "nope.env") [bytes "file2"] rfl
      (by decide) (by decide)⟩

/-- C10. `IsSet(k)` returns true iff some entry of the environ has the exact
prefix `k=`, and the call leaves the environ unchanged. -/
theorem C10_isSet (e : environ) (k : Str) :
    ((IsSet e k).1 = true ↔ ∃ s ∈ e, (k ++ [61]) <+: s) ∧ (IsSet e k).2 = e :=
  ⟨IsSet_iff e k, rfl⟩

/-! ## `Unset`, by position -/

theorem Unset_of_no_match : ∀ (e : environ) (k : Str),
    (∀ s ∈ e, ¬ beginsWith s k) → Unset e k = e
  | [], _, _ => rfl
  | x :: xs, k, h => by
    rw [Unset_cons_neg xs (h x (List.mem_cons_self _ _)),
      Unset_of_no_match xs k (fun s hs => h s (List.mem_cons_of_mem _ hs))]

/-- The loop of `Unset` stops at the first entry that begins with `key=`. -/
theorem findIdx_first (k : Str) : ∀ (e : environ) (i : Nat) (s : Str),
    e[i]? = some s → beginsWith s k →
    (∀ j t, j < i → e[j]? = some t → ¬ beginsWith t k) →
    e.findIdx? (fun s => HasPrefix s (k ++ eq)) = some i
  | [], i, s, hi, _, _ => by simp at hi
  | x :: xs, 0, s, hi, hs, _ => by
    simp only [List.getElem?_cons_zero, Option.some.injEq] at hi
    subst hi
    have hx : HasPrefix x (k ++ eq) = true := by rw [hasPrefix_key]; simpa using hs
    simp [List.findIdx?_cons, hx]
  | x :: xs, i + 1, s, hi, hs, hfirst => by
    have hx0 : ¬ beginsWith x k := hfirst 0 x (Nat.succ_pos i) (by simp)
    have hx : HasPrefix x (k ++ eq) = false := by rw [hasPrefix_key]; simpa using hx0
    have ih := findIdx_first k xs i s (by simpa using hi) hs
      (fun j t hj ht => hfirst (j + 1) t (Nat.succ_lt_succ hj) (by simpa using ht))
    simp [List.findIdx?_cons, hx, ih]

theorem eraseP_first (k : Str) : ∀ (e : environ) (i : Nat) (s : Str),
    e[i]? = some s → beginsWith s k →
    (∀ j t, j < i → e[j]? = some t → ¬ beginsWith t k) →
    e.eraseP (fun s => decide (beginsWith s k)) = e.eraseIdx i
  | [], i, s, hi, _, _ => by simp at hi
  | x :: xs, 0, s, hi, hs, _ => by
    simp only [List.getElem?_cons_zero, Option.some.injEq] at hi
    subst hi
    rw [List.eraseP_cons_of_pos (by simpa using hs)]
    rfl
  | x :: xs, i + 1, s, hi, hs, hfirst => by
    have hx0 : ¬ beginsWith x k := hfirst 0 x (Nat.succ_pos i) (by simp)
    rw [List.eraseP_cons_of_neg (by simpa using hx0), List.eraseIdx_cons_succ,
      eraseP_first k xs i s (by simpa using hi) hs
        (fun j t hj ht => hfirst (j + 1) t (Nat.succ_lt_succ hj) (by simpa using ht))]

/-- C11. `Unset(k)` on an environ `e` of length `n`: if no entry begins with
`k=` the environ is unchanged; otherwise, with `i` the index of the first
entry that does, the result has length `n-1`, agrees with `e` at every index
`j < n-1` other than `i`, holds the former final entry at index `i` (when
`i < n-1`), and is, up to order, `e` without its entry at index `i`. -/
theorem C11_unset_positions (e : environ) (k : Str) :
    ((∀ s ∈ e, ¬ (k ++ [61]) <+: s) → Unset e k = e) ∧
    (∀ i s, e[i]? = some s → (k ++ [61]) <+: s →
      (∀ j t, j < i → e[j]? = some t → ¬ (k ++ [61]) <+: t) →
      (Unset e k).length = e.length - 1 ∧
      (∀ j, j < e.length - 1 → j ≠ i → (Unset e k)[j]? = e[j]?) ∧
      (i < e.length - 1 → (Unset e k)[i]? = e[e.length - 1]?) ∧
      (Unset e k).Perm (e.eraseIdx i)) := by
  refine ⟨Unset_of_no_match e k, ?_⟩
  intro i s hi hs hfirst
  have hfind := findIdx_first k e i s hi hs hfirst
  have hlt : i < e.length := by
    rcases Nat.lt_or_ge i e.length with h | h
    · exact h
    · rw [List.getElem?_eq_none h] at hi; cases hi
  have hU : Unset e k = (e.set i (e.getLastD [])).take (e.length - 1) := by
    unfold Unset; rw [hfind]
  have hlast : e[e.length - 1]? = some (e.getLastD []) := by
    rw [← List.getLast?_eq_getElem?, List.getLastD_eq_getLast?]
    cases hl : e.getLast? with
    | none =>
      have : e = [] := by simpa using hl
      rw [this] at hlt; simp at hlt
    | some l => rfl
  refine ⟨?_, ?_, ?_, ?_⟩
  · rw [hU, List.length_take, List.length_set]; omega
  · intro j hj hne
    rw [hU, List.getElem?_take, if_pos hj, List.getElem?_set, if_neg (Ne.symm hne)]
  · intro hi'
    rw [hU, List.getElem?_take, if_pos hi', List.getElem?_set, if_pos rfl, if_pos hlt, hlast]
  · have := Unset_perm e k
    rw [eraseP_first k e i s hi hs hfirst] at this
    exact this

/-- C11, on the environ `A=1`, `B=2`, `C=3` and the key `A`: the final
entry `C=3` takes the place of `A=1`. -/
theorem C11_unset_positions_witness :
    ([bytes "A=1", bytes "B=2", bytes "C=3"][0]? = some (bytes "A=1") ∧
      (bytes "A" ++ [61]) <+: bytes "A=1") ∧
    ((Unset [bytes "A=1", bytes "B=2", bytes "C=3"] (bytes "A")).length
        = [bytes "A=1", bytes "B=2", bytes "C=3"].length - 1 ∧
      (∀ j, j < [bytes "A=1", bytes "B=2", bytes "C=3"].length - 1 → j ≠ 0 →
        (Unset [bytes "A=1", bytes "B=2", bytes "C=3"] (bytes "A"))[j]?
          = [bytes "A=1", bytes "B=2", bytes "C=3"][j]?) ∧
      (0 < [bytes "A=1", bytes "B=2", bytes "C=3"].length - 1 →
        (Unset [bytes "A=1", bytes "B=2", bytes "C=3"] (bytes "A"))[0]?
          = [bytes "A=1", bytes "B=2", bytes "C=3"][
              [bytes "A=1", bytes "B=2", bytes "C=3"].length - 1]?) ∧
      (Unset [bytes "A=1", bytes "B=2", bytes "C=3"] (bytes "A")).Perm
        ([bytes "A=1", bytes "B=2", bytes "C=3"].eraseIdx 0)) ∧
    Unset [bytes "A=1", bytes "B=2", bytes "C=3"] (bytes "A") = [bytes "C=3", bytes "B=2"] :=
  ⟨by decide,
    (C11_unset_positions [bytes "A=1", bytes "B=2", bytes "C=3"] (bytes "A")).2 0 (bytes "A=1")
      (by decide) (by decide) (fun j _ hj => absurd hj (Nat.not_lt_zero j)),
    by decide⟩

/-! ## `Set` twice, and `Set` of fresh keys -/

theorem Unset_append_new {x : Str} {k : Str} (hx : beginsWith x k) : ∀ (u : environ),
    (∀ s ∈ u, ¬ beginsWith s k) → Unset (u ++ [x]) k = u
  | [], _ => by
    rw [List.nil_append, Unset_cons_pos [] hx]
    rfl
  | y :: ys, h => by
    rw [List.cons_append, Unset_cons_neg _ (h y (List.mem_cons_self _ _)),
      Unset_append_new hx ys (fun s hs => h s (List.mem_cons_of_mem _ hs))]

theorem Unset_no_entry_left {e : environ} {k : Str}
    (h : e.countP (fun s => decide (beginsWith s k)) ≤ 1) :
    ∀ s ∈ Unset e k, ¬ beginsWith s k := by
  have h0 : (Unset e k).countP (fun s => decide (beginsWith s k)) = 0 := by
    rw [countP_Unset_self]; omega
  intro s hs hb
  have hpos : 0 < (Unset e k).countP (fun s => decide (beginsWith s k)) :=
    List.countP_pos_iff.2 ⟨s, hs, by simpa using hb⟩
  omega

/-- Calls `Set` with fresh, pairwise different, `=`-free keys append their
entries in the order of the calls. -/
theorem applySets_fresh : ∀ (calls : List (Str × Str)) (e : environ),
    (∀ c ∈ calls, noEq c.1) → (calls.map Prod.fst).Nodup →
    (∀ c ∈ calls, ∀ s ∈ e, ¬ beginsWith s c.1) →
    applySets e calls = e ++ calls.map (fun c => c.1 ++ eq ++ c.2)
  | [], e, _, _, _ => by simp [applySets_nil]
  | c :: cs, e, hk, hnd, hfresh => by
    have hset : Set e c.1 c.2 = e ++ [c.1 ++ eq ++ c.2] := by
      unfold Set
      rw [Unset_of_no_match e c.1 (hfresh c (List.mem_cons_self _ _))]
    rw [List.map_cons, List.nodup_cons] at hnd
    rw [applySets_cons, hset, applySets_fresh cs _
      (fun d hd => hk d (List.mem_cons_of_mem _ hd)) hnd.2]
    · simp
    · intro d hd s hs
      rcases List.mem_append.1 hs with h | h
      · exact hfresh d (List.mem_cons_of_mem _ hd) s h
      · rw [List.mem_singleton.1 h]
        intro hb
        have hdc : d.1 = c.1 := (new_beginsWith_iff c.2 (hk d (List.mem_cons_of_mem _ hd))
          (hk c (List.mem_cons_self _ _))).1 hb
        exact hnd.1 (hdc ▸ List.mem_map_of_mem Prod.fst hd)

/-- C12, at the environ `A=1`, `A=2`: a first `Set("A","3")` removes `A=1`
only and gives `A=2`, `A=3`, and a second `Set("A","3")` gives `A=3`, `A=3`,
another environ; an earlier entry of the key is left in place although the
comment of `Set` says that it replaces any existing ones of the same key. -/
theorem C12_set_twice_on_duplicates :
    Set [bytes "A=1", bytes "A=2"] (bytes "A") (bytes "3") = [bytes "A=2", bytes "A=3"] ∧
    Set (Set [bytes "A=1", bytes "A=2"] (bytes "A") (bytes "3")) (bytes "A") (bytes "3")
      = [bytes "A=3", bytes "A=3"] ∧
    Set (Set [bytes "A=1", bytes "A=2"] (bytes "A") (bytes "3")) (bytes "A") (bytes "3")
      ≠ Set [bytes "A=1", bytes "A=2"] (bytes "A") (bytes "3") := by
  decide

/-- On an environ in which at most one entry begins with `k=`, `Set(k, v)`
twice in a row yields the same environ as `Set(k, v)` once. -/
theorem Set_twice_of_unique (e : environ) (k v : Str)
    (h : e.countP (fun s => decide (beginsWith s k)) ≤ 1) :
    Set (Set e k v) k v = Set e k v := by
  unfold Set
  rw [Unset_append_new (new_beginsWith k v) (Unset e k) (Unset_no_entry_left h)]

/-- C13, as stated, fails: after `Set("A","1")`, `Set("B","2")`,
`Set("C","3")`, `Set("A","4")` the keys `B` and `C` were set once, `B` before
`C`, but the environ is `C=3`, `B=2`, `A=4`: the entry of `C` took the place
of the overwritten `A=1`. -/
theorem C13_insertion_order_counterexample :
    applySets [] [(bytes "A", bytes "1"), (bytes "B", bytes "2"), (bytes "C", bytes "3"),
        (bytes "A", bytes "4")]
      = [bytes "C=3", bytes "B=2", bytes "A=4"] ∧
    ¬ [bytes "B=2", bytes "C=3"].Sublist [bytes "C=3", bytes "B=2", bytes "A=4"] := by
  decide

/-- C13, amended. For every sequence of `Set` calls with `=`-free keys on the
empty environ: if no key is set twice, the environ holds the entries in the
order of the calls; and right after any of the calls, `Set(k, v)`, the final
entry of the environ is `k=v`. -/
theorem C13_insertion_order (calls : List (Str × Str)) (hkeys : ∀ c ∈ calls, noEq c.1) :
    ((calls.map Prod.fst).Nodup →
      applySets [] calls = calls.map (fun c => c.1 ++ eq ++ c.2)) ∧
    (∀ pre k v post, calls = pre ++ (k, v) :: post →
      (applySets [] (pre ++ [(k, v)])).getLast? = some (k ++ eq ++ v)) := by
  refine ⟨?_, ?_⟩
  · intro hnd
    have := applySets_fresh calls [] hkeys hnd (by simp)
    simpa using this
  · intro pre k v post _
    rw [applySets_append]
    show (Set (applySets [] pre) k v).getLast? = _
    unfold Set
    exact List.getLast?_concat _

/-- C13, amended, on the calls `Set("A","1")`, `Set("B","2")`, `Set("C","3")`. -/
theorem C13_insertion_order_witness :
    ((∀ c ∈ [(bytes "A", bytes "1"), (bytes "B", bytes "2"), (bytes "C", bytes "3")],
        noEq c.1) ∧
      ([(bytes "A", bytes "1"), (bytes "B", bytes "2"), (bytes "C", bytes "3")].map
        Prod.fst).Nodup) ∧
    applySets [] [(bytes "A", bytes "1"), (bytes "B", bytes "2"), (bytes "C", bytes "3")]
      = [(bytes "A", bytes "1"), (bytes "B", bytes "2"), (bytes "C", bytes "3")].map
          (fun c => c.1 ++ eq ++ c.2) :=
  ⟨by decide,
    (C13_insertion_order [(bytes "A", bytes "1"), (bytes "B", bytes "2"), (bytes "C", bytes "3")]
      (by decide)).1 (by decide)⟩

/-! ## The `Args` validator -/

theorem MinimumNArgs_nil :
    MinimumNArgs 1 [] = some (GoError.base (bytes "requires at least 1 arg(s), only received 0")) := by
  decide

theorem MinimumNArgs_of_ne_nil {args : List Str} (h : args ≠ []) : MinimumNArgs 1 args = none := by
  unfold MinimumNArgs
  have : ¬ args.length < 1 := by
    have := List.length_pos.2 h
    omega
  rw [if_neg this]

theorem Args_events (args : List Str) (dashIx : Int) : (execLocalCmd.Args args dashIx).2 = [] := by
  unfold execLocalCmd.Args
  split
  · rfl
  · split
    · split
      · rfl
      · split <;> rfl
    · rfl

theorem Args_no_dash (args : List Str) :
    (execLocalCmd.Args args (-1)).1 = Validation.fail (GoError.base
      (bytes "please separate files and command with '--'. See usage")) := by
  unfold execLocalCmd.Args
  rw [if_pos rfl]

theorem Args_no_file (args : List Str) :
    (execLocalCmd.Args args 0).1 = Validation.fail (GoError.wrap
      (GoError.base (bytes "requires at least 1 arg(s), only received 0"))
      (bytes "at least one file must be specified")) := by
  unfold execLocalCmd.Args
  rw [if_neg (by decide), if_pos ⟨le_refl _, by omega⟩]
  simp only [Int.toNat_zero, List.take_zero, MinimumNArgs_nil]

theorem Args_no_command (args : List Str) (h : 0 < args.length) :
    (execLocalCmd.Args args (args.length : Int)).1 = Validation.fail (GoError.wrap
      (GoError.base (bytes "requires at least 1 arg(s), only received 0"))
      (bytes "must specify command to run. See usage")) := by
  unfold execLocalCmd.Args
  rw [if_neg (by omega), if_pos ⟨by omega, le_refl _⟩]
  have htake : MinimumNArgs 1 (args.take (args.length : Int).toNat) = none := by
    apply MinimumNArgs_of_ne_nil
    simp only [Int.toNat_ofNat, List.take_length]
    exact List.ne_nil_of_length_pos h
  have hdrop : args.drop (args.length : Int).toNat = [] := by simp
  simp only [htake, hdrop, MinimumNArgs_nil]

theorem Args_pass (args : List Str) (dashIx : Int) (h0 : 0 < dashIx)
    (h1 : dashIx < args.length) : (execLocalCmd.Args args dashIx).1 = Validation.pass := by
  unfold execLocalCmd.Args
  rw [if_neg (by omega), if_pos ⟨by omega, by omega⟩]
  have htake : MinimumNArgs 1 (args.take dashIx.toNat) = none := by
    apply MinimumNArgs_of_ne_nil
    intro hnil
    have := congrArg List.length hnil
    simp only [List.length_take, List.length_nil] at this
    omega
  have hdrop : MinimumNArgs 1 (args.drop dashIx.toNat) = none := by
    apply MinimumNArgs_of_ne_nil
    intro hnil
    have := congrArg List.length hnil
    simp only [List.length_drop, List.length_nil] at this
    omega
  simp only [htake, hdrop]

theorem Args_panic (args : List Str) (dashIx : Int) (h : dashIx ≠ -1)
    (hout : ¬ (0 ≤ dashIx ∧ dashIx ≤ args.length)) :
    (execLocalCmd.Args args dashIx).1 = Validation.panic := by
  unfold execLocalCmd.Args
  rw [if_neg h, if_neg hout]

/-- The validator passes exactly on `0 < dashIx < len(args)`. -/
theorem Args_pass_iff (args : List Str) (dashIx : Int) :
    (execLocalCmd.Args args dashIx).1 = Validation.pass ↔ (0 < dashIx ∧ dashIx < args.length) := by
  constructor
  · intro h
    by_cases hm : dashIx = -1
    · rw [hm, Args_no_dash] at h; cases h
    by_cases hin : 0 ≤ dashIx ∧ dashIx ≤ args.length
    · by_cases hz : dashIx = 0
      · rw [hz, Args_no_file] at h; cases h
      by_cases hl : dashIx = args.length
      · rw [hl, Args_no_command args (by omega)] at h; cases h
      · omega
    · rw [Args_panic args dashIx hm hin] at h; cases h
  · rintro ⟨h0, h1⟩
    exact Args_pass args dashIx h0 h1

/-- C14. Argument-shape validation of `execlocal`: for `dashIx = -1` (no
`--`) or `0 ≤ dashIx ≤ len(args)`, the `Args` validator returns an error iff
`dashIx = -1`, `dashIx = 0` or `dashIx = len(args)`; the missing separator is
reported first, then the missing file, then the missing command; and the
validator makes no call into the file system (it has no events at all). -/
theorem C14_args_validation (args : List Str) (dashIx : Int)
    (hdom : dashIx = -1 ∨ (0 ≤ dashIx ∧ dashIx ≤ args.length)) :
    ((∃ err, (execLocalCmd.Args args dashIx).1 = Validation.fail err)
      ↔ (dashIx = -1 ∨ dashIx = 0 ∨ dashIx = args.length)) ∧
    (dashIx = -1 → (execLocalCmd.Args args dashIx).1 = Validation.fail (GoError.base
      (bytes "please separate files and command with '--'. See usage"))) ∧
    (dashIx = 0 → (execLocalCmd.Args args dashIx).1 = Validation.fail (GoError.wrap
      (GoError.base (bytes "requires at least 1 arg(s), only received 0"))
      (bytes "at least one file must be specified"))) ∧
    (0 < dashIx → dashIx = args.length →
      (execLocalCmd.Args args dashIx).1 = Validation.fail (GoError.wrap
        (GoError.base (bytes "requires at least 1 arg(s), only received 0"))
        (bytes "must specify command to run. See usage"))) ∧
    (0 < dashIx → dashIx < args.length →
      (execLocalCmd.Args args dashIx).1 = Validation.pass) ∧
    (execLocalCmd.Args args dashIx).2 = [] := by
  have h1 : dashIx = -1 → (execLocalCmd.Args args dashIx).1 = Validation.fail (GoError.base
      (bytes "please separate files and command with '--'. See usage")) := by
    intro h; rw [h]; exact Args_no_dash args
  have h2 : dashIx = 0 → (execLocalCmd.Args args dashIx).1 = Validation.fail (GoError.wrap
      (GoError.base (bytes "requires at least 1 arg(s), only received 0"))
      (bytes "at least one file must be specified")) := by
    intro h; rw [h]; exact Args_no_file args
  have h3 : 0 < dashIx → dashIx = args.length →
      (execLocalCmd.Args args dashIx).1 = Validation.fail (GoError.wrap
        (GoError.base (bytes "requires at least 1 arg(s), only received 0"))
        (bytes "must specify command to run. See usage")) := by
    intro hpos h; rw [h]; exact Args_no_command args (by omega)
  refine ⟨⟨?_, ?_⟩, h1, h2, h3, Args_pass args dashIx, Args_events args dashIx⟩
  · rintro ⟨err, herr⟩
    by_contra hnot
    have hp : (execLocalCmd.Args args dashIx).1 = Validation.pass :=
      Args_pass args dashIx (by omega) (by omega)
    rw [hp] at herr; cases herr
  · rintro (h | h | h)
    · exact ⟨_, h1 h⟩
    · exact ⟨_, h2 h⟩
    · by_cases hz : dashIx = 0
      · exact ⟨_, h2 hz⟩
      · exact ⟨_, h3 (by omega) h⟩

/-- C14, on `execlocal a.env --`: one file, the separator, no command. -/
theorem C14_args_validation_witness :
    ((1 : Int) = -1 ∨ ((0 : Int) ≤ 1 ∧ (1 : Int) ≤ ([bytes "a.env"] : List Str).length)) ∧
    (∃ err, (execLocalCmd.Args [bytes "a.env"] 1).1 = Validation.fail err) :=
  ⟨by decide,
    (C14_args_validation [bytes "a.env"] 1 (by decide)).1.2 (Or.inr (Or.inr (by decide)))⟩

/-- C15, at `execlocal usage.env -- printenv` with no file `usage.env`: the
arguments pass the validator, `execLocalRun` returns the validation error of
the file, whose text is `Failed to validate file: stat usage.env: no such
file or directory`, and `Execute` prints the usage text for it, because the
text contains `usage`. -/
theorem C15_usage_for_runtime_error :
    (execLocalCmd.Args [bytes "usage.env", bytes "printenv"] 1).1 = Validation.pass ∧
    (execLocalRun emptyFs [] [bytes "usage.env", bytes "printenv"] 1).1
      = Outcome.error (GoError.wrap
          (GoError.base (bytes "stat usage.env: no such file or directory"))
          (bytes "Failed to validate file")) ∧
    Execute (some (GoError.wrap
        (GoError.base (bytes "stat usage.env: no such file or directory"))
        (bytes "Failed to validate file")))
      = (true, some 1) := by
  decide

/-- What holds of C15: the errors of the `Args` validator make `Execute`
print the usage text, and every error ends in `os.Exit(1)`. -/
theorem Execute_validation_errors (args : List Str) (dashIx : Int) (err : GoError)
    (hdom : dashIx = -1 ∨ (0 ≤ dashIx ∧ dashIx ≤ args.length))
    (h : (execLocalCmd.Args args dashIx).1 = Validation.fail err) :
    (Execute (some err)).1 = true ∧ ∀ e : GoError, (Execute (some e)).2 = some 1 := by
  refine ⟨?_, fun _ => rfl⟩
  by_cases hm : dashIx = -1
  · rw [hm, Args_no_dash] at h
    cases h
    decide
  by_cases hz : dashIx = 0
  · rw [hz, Args_no_file] at h
    cases h
    decide
  by_cases hl : dashIx = args.length
  · rw [hl, Args_no_command args (by omega)] at h
    cases h
    decide
  · rw [Args_pass args dashIx (by omega) (by omega)] at h
    cases h

/-! ## Entries the merge does not touch -/

theorem count_Unset_other (e : environ) {k s : Str} (hs : ¬ beginsWith s k) :
    (Unset e k).count s = e.count s := by
  unfold List.count
  rw [(Unset_perm e k).countP_eq]
  rw [List.countP_eq_length_filter, List.countP_eq_length_filter]
  congr 1
  apply filter_eraseP_disjoint
  intro t ht
  have : t = s := by simpa using ht
  rw [this]
  simpa using hs

theorem count_Set_other (e : environ) {k s : Str} (v : Str) (hs : ¬ beginsWith s k) :
    (Set e k v).count s = e.count s := by
  unfold Set
  rw [List.count_append, count_Unset_other e hs]
  have hne : k ++ eq ++ v ≠ s := fun h => hs (h ▸ new_beginsWith k v)
  simpa [List.count_cons] using hne

theorem count_applySets_other {s : Str} : ∀ (calls : List (Str × Str)) (e : environ),
    (∀ c ∈ calls, ¬ beginsWith s c.1) → (applySets e calls).count s = e.count s
  | [], _, _ => rfl
  | c :: cs, e, h => by
    rw [applySets_cons, count_applySets_other cs _ (fun d hd => h d (List.mem_cons_of_mem _ hd)),
      count_Set_other e c.2 (h c (List.mem_cons_self _ _))]

/-- C16. The merge leaves unrelated variables alone: in a run whose files all
load, whatever the base environ, a string that does not begin with `k=` for
any record key `k` occurs in the environ handed to `exec` exactly as often as
in the base environ; and `Set(k, v)` with an `=`-free key `k` does not change
`IsSet(k')` for any other `=`-free key `k'`. -/
theorem C16_merge_frame (fs : FileSystem) (base : environ) (files : List Str)
    (command : Str) (commandArgs : List Str) :
    (∀ s : Str, (∀ f ∈ files, fileOk fs f) →
      (∀ r ∈ allRecords fs files, ¬ (r.Key ++ [61]) <+: s) →
      ∃ env, (execLocalRun fs base (files ++ command :: commandArgs) (files.length : Int)).1
          = Outcome.exec command commandArgs env ∧ env.count s = base.count s) ∧
    (∀ (e : environ) (k k' v : Str), 61 ∉ k → 61 ∉ k' → k' ≠ k →
      (IsSet (Set e k v) k').1 = (IsSet e k').1) := by
  refine ⟨?_, ?_⟩
  · intro s hok hs
    refine ⟨applySets base (callsOf (allRecords fs files)), ?_, ?_⟩
    · rw [execLocalRun_split, runFiles_ok fs command commandArgs base files hok]
    · apply count_applySets_other
      intro c hc
      obtain ⟨r, hr, rfl⟩ := List.mem_map.1 hc
      exact hs r hr
  · intro e k k' v hk hk' hne
    have h := IsSet_Set e v hk' hk
    cases h1 : (IsSet (Set e k v) k').1 <;> cases h2 : (IsSet e k').1
    · rfl
    · exact absurd (h.2 (Or.inr h2)) (by simp [h1])
    · rcases h.1 h1 with h' | h'
      · exact absurd h' hne
      · rw [h2] at h'; cases h'
    · rfl

/-- C16, on a run: base `A=1`, `HOME=/root`, a stray `junk`, and `file1`
holding `A=2`; the entry `HOME=/root` is still there once. -/
theorem C16_merge_frame_witness :
    ((∀ f ∈ [bytes "file1"], fileOk demoFs f) ∧
      ∀ r ∈ allRecords demoFs [bytes "file1"], ¬ (r.Key ++ [61]) <+: bytes "HOME=/root") ∧
    ∃ env, (execLocalRun demoFs [bytes "A=1", bytes "HOME=/root", bytes "junk"]
        ([bytes "file1"] ++ bytes "printenv" :: [])
        (([bytes "file1"] : List Str).length : Int)).1
        = Outcome.exec (bytes "printenv") [] env ∧
      env.count (bytes "HOME=/root")
        = [bytes "A=1", bytes "HOME=/root", bytes "junk"].count (bytes "HOME=/root") :=
  ⟨by decide,
    (C16_merge_frame demoFs [bytes "A=1", bytes "HOME=/root", bytes "junk"] [bytes "file1"]
      (bytes "printenv") []).1 (bytes "HOME=/root") (by decide) (by decide)⟩

theorem length_Unset (e : environ) (k : Str) :
    (Unset e k).length = if (IsSet e k).1 then e.length - 1 else e.length := by
  rw [(Unset_perm e k).length_eq, List.length_eraseP]
  have : (fun s => decide (beginsWith s k)) = (fun s => HasPrefix s (k ++ eq)) := by
    funext s; rw [hasPrefix_key]
  rw [this]
  rfl

/-- C17. `Set` preserves key uniqueness on well formed environs: if for each
key at most one entry begins with `key=` and `k` has no `=` (also when `k` is
empty), then after `Set(k, v)` the same holds again, the final entry is
`k=v`, and the length is unchanged if `IsSet(k)` held before and larger by
one otherwise. -/
theorem C17_set_preserves_uniqueness (e : environ) (k v : Str)
    (he : ∀ key : Str, e.countP (fun s => decide ((key ++ [61]) <+: s)) ≤ 1) (hk : 61 ∉ k) :
    (∀ key : Str, (Set e k v).countP (fun s => decide ((key ++ [61]) <+: s)) ≤ 1) ∧
    (Set e k v).getLast? = some (k ++ [61] ++ v) ∧
    (Set e k v).length = if (IsSet e k).1 then e.length else e.length + 1 := by
  refine ⟨Set_uniqueKeys v he hk, ?_, ?_⟩
  · unfold Set
    exact List.getLast?_concat _
  · unfold Set
    rw [List.length_append, length_Unset]
    by_cases h : (IsSet e k).1 = true
    · obtain ⟨s, hs, _⟩ := (IsSet_iff e k).1 h
      have := List.length_pos_of_mem hs
      simp only [h, if_true, List.length_singleton]
      omega
    · simp only [h, if_false, List.length_singleton]
      simp

/-- C17, on the environ `A=1`, `B=2` and `Set("A", "3")`. -/
theorem C17_set_preserves_uniqueness_witness :
    ((∀ key : Str, [bytes "A=1", bytes "B=2"].countP
        (fun s => decide ((key ++ [61]) <+: s)) ≤ 1) ∧ 61 ∉ bytes "A") ∧
    (Set [bytes "A=1", bytes "B=2"] (bytes "A") (bytes "3")).getLast?
      = some (bytes "A" ++ [61] ++ bytes "3") :=
  ⟨⟨(noSharedKey_iff_uniqueKeys _).1 (by decide), by decide⟩,
    (C17_set_preserves_uniqueness [bytes "A=1", bytes "B=2"] (bytes "A") (bytes "3")
      ((noSharedKey_iff_uniqueKeys _).1 (by decide)) (by decide)).2.1⟩

theorem runFiles_ne_panic (fs : FileSystem) (command : Str) (commandArgs : List Str) :
    ∀ (files : List Str) (env : environ) (events : List Event),
    (runFiles fs command commandArgs files env events).1 ≠ Outcome.panic
  | [], _, _ => by simp [runFiles]
  | f :: rest, env, events => by
    rw [runFiles]
    split
    · simp
    · split
      · simp
      · exact runFiles_ne_panic fs command commandArgs rest _ _

/-- C18. The argument split of `execLocalRun` cannot index out of range once
validation has passed: if the `Args` validator accepts `args` and `dashIx`,
then `0 < dashIx < len(args)`, the files `args[:dashIx]` are not empty, the
command `args[dashIx]` exists, files, command and `args[dashIx+1:]` together
are `args`, and `execLocalRun` does not panic. -/
theorem C18_split_in_range (args : List Str) (dashIx : Int)
    (h : (execLocalCmd.Args args dashIx).1 = Validation.pass) :
    0 < dashIx ∧ dashIx < args.length ∧
    args.take dashIx.toNat ≠ [] ∧
    (∃ command, args[dashIx.toNat]? = some command ∧
      args.take dashIx.toNat ++ command :: args.drop (dashIx.toNat + 1) = args) ∧
    ∀ (fs : FileSystem) (osEnviron : List Str),
      (execLocalRun fs osEnviron args dashIx).1 ≠ Outcome.panic := by
  obtain ⟨h0, h1⟩ := (Args_pass_iff args dashIx).1 h
  have hlt : dashIx.toNat < args.length := by omega
  refine ⟨h0, h1, ?_, ?_, ?_⟩
  · intro hnil
    have := congrArg List.length hnil
    simp only [List.length_take, List.length_nil] at this
    omega
  · refine ⟨args[dashIx.toNat], List.getElem?_eq_getElem hlt, ?_⟩
    rw [← List.drop_eq_getElem_cons hlt, List.take_append_drop]
  · intro fs osEnviron
    unfold execLocalRun
    rw [if_pos ⟨by omega, h1⟩]
    exact runFiles_ne_panic fs _ _ _ _ _

/-- C18, on `execlocal a.env -- printenv PORT`. -/
theorem C18_split_in_range_witness :
    (execLocalCmd.Args [bytes "a.env", bytes "printenv", bytes "PORT"] 1).1 = Validation.pass ∧
    (0 : Int) < 1 ∧ (1 : Int) < ([bytes "a.env", bytes "printenv", bytes "PORT"] : List Str).length :=
  ⟨by decide,
    (C18_split_in_range [bytes "a.env", bytes "printenv", bytes "PORT"] 1 (by decide)).1,
    (C18_split_in_range [bytes "a.env", bytes "printenv", bytes "PORT"] 1 (by decide)).2.1⟩

/-! ## The snapshot of the process environment -/

theorem entryKey_nil : entryKey [] = none := by
  simp [entryKey]

/-- A key of an entry that `copyenv` has kept was not met before. -/
theorem copyenv_key_fresh : ∀ (l : List Str) (seen : List Str) (b k : Str),
    b ∈ copyenv seen l → entryKey b = some k → k ∉ seen
  | [], _, b, _, hb, _ => by simp [copyenv] at hb
  | s :: rest, seen, b, k, hb, hk => by
    unfold copyenv at hb
    cases hs : entryKey s with
    | none =>
      rw [hs] at hb
      rcases List.mem_cons.1 hb with h | h
      · rw [h, hs] at hk; cases hk
      · exact copyenv_key_fresh rest seen b k h hk
    | some key =>
      rw [hs] at hb
      by_cases hseen : key ∈ seen
      · simp only [hseen, if_true] at hb
        rcases List.mem_cons.1 hb with h | h
        · rw [h, entryKey_nil] at hk; cases hk
        · exact copyenv_key_fresh rest seen b k h hk
      · simp only [hseen, if_false] at hb
        rcases List.mem_cons.1 hb with h | h
        · rw [h, hs] at hk
          cases hk
          exact hseen
        · exact fun hmem =>
            copyenv_key_fresh rest (key :: seen) b k h hk (List.mem_cons_of_mem _ hmem)

theorem copyenv_pairwise : ∀ (l : List Str) (seen : List Str),
    (copyenv seen l).Pairwise (fun a b => entryKey a = none ∨ entryKey a ≠ entryKey b)
  | [], _ => by simp [copyenv]
  | s :: rest, seen => by
    unfold copyenv
    cases hs : entryKey s with
    | none =>
      simp only
      exact List.pairwise_cons.2 ⟨fun b _ => Or.inl hs, copyenv_pairwise rest seen⟩
    | some key =>
      simp only
      by_cases hseen : key ∈ seen
      · simp only [hseen, if_true]
        exact List.pairwise_cons.2 ⟨fun b _ => Or.inl entryKey_nil, copyenv_pairwise rest seen⟩
      · simp only [hseen, if_false]
        refine List.pairwise_cons.2 ⟨fun b hb => Or.inr ?_, copyenv_pairwise rest (key :: seen)⟩
        rw [hs]
        intro heq
        exact copyenv_key_fresh rest (key :: seen) b key hb heq.symm (List.mem_cons_self _ _)

/-- No two entries of `os.Environ()` share the same key. -/
theorem Environ_noSharedKey (envs : List Str) : NoSharedKey (Environ envs) := by
  unfold NoSharedKey Environ
  exact (copyenv_pairwise envs []).filter _

/-- C3. Key uniqueness once merging completes: for every environment block
of the process, with the base environ the snapshot `os.Environ()` takes of
it, and every list of files that all load, no two entries of the environ
that `execLocalRun` hands to `exec` share the same key (the text before the
entry's first `=`). -/
theorem C3_key_uniqueness (fs : FileSystem) (envs : List Str) (files : List Str)
    (command : Str) (commandArgs : List Str) (hok : ∀ f ∈ files, fileOk fs f) :
    ∃ env, (execLocalRun fs (Environ envs) (files ++ command :: commandArgs)
        (files.length : Int)).1
        = Outcome.exec command commandArgs env ∧ NoSharedKey env :=
  run_noSharedKey fs (Environ envs) files command commandArgs (Environ_noSharedKey envs) hok

/-- C3, on the environment block `A=1`, `A=2` and the file `b.env` holding
`B=1`: the snapshot is `A=1`, and `exec` gets `A=1`, `B=1`. -/
theorem C3_key_uniqueness_witness :
    (∀ f ∈ [bytes "b.env"], fileOk demoFs f) ∧
    (∃ env, (execLocalRun demoFs (Environ [bytes "A=1", bytes "A=2"])
        ([bytes "b.env"] ++ bytes "printenv" :: [])
        (([bytes "b.env"] : List Str).length : Int)).1
        = Outcome.exec (bytes "printenv") [] env ∧ NoSharedKey env) ∧
    (execLocalRun demoFs (Environ [bytes "A=1", bytes "A=2"])
        [bytes "b.env", bytes "printenv"] 1).1
      = Outcome.exec (bytes "printenv") [] [bytes "A=1", bytes "B=1"] :=
  ⟨by decide,
    C3_key_uniqueness demoFs [bytes "A=1", bytes "A=2"] [bytes "b.env"] (bytes "printenv") []
      (by decide),
    by decide⟩

/-! ## A line that does not fit the scanner's buffer -/

theorem scanFrom_no_newline (readErr : Option GoError) : ∀ (data line : Str), 10 ∉ data →
    scanFrom readErr data line = scanFrom readErr [] (line ++ data)
  | [], line, _ => by simp
  | c :: rest, line, h => by
    have hc : c ≠ 10 := fun hc => h (hc ▸ List.mem_cons_self _ _)
    have step : scanFrom readErr (c :: rest) line = scanFrom readErr rest (line ++ [c]) := by
      rw [scanFrom, if_neg hc]
    rw [step, scanFrom_no_newline readErr rest (line ++ [c])
      (fun hm => h (List.mem_cons_of_mem _ hm))]
    simp

theorem scanFrom_too_long (readErr : Option GoError) (data : Str) (h10 : 10 ∉ data)
    (hlen : MaxScanTokenSize ≤ data.length) :
    scanFrom readErr data [] = ([], some ErrTooLong) := by
  have hne : data ≠ [] := by
    intro h
    rw [h] at hlen
    exact absurd hlen (by decide)
  rw [scanFrom_no_newline readErr data [] h10, List.nil_append, scanFrom, if_neg hne,
    if_pos hlen]

/-- A file of less than `MaxScanTokenSize` bytes that is read without I/O
error is scanned without error. -/
theorem scanFrom_small : ∀ (data line : Str),
    line.length + data.length < MaxScanTokenSize → (scanFrom none data line).2 = none
  | [], line, h => by
    have hlt : ¬ MaxScanTokenSize ≤ line.length := by
      simp only [List.length_nil] at h
      omega
    rw [scanFrom]
    by_cases hl : line = []
    · rw [if_pos hl]
    · rw [if_neg hl, if_neg hlt]
  | c :: rest, line, h => by
    simp only [List.length_cons] at h
    rw [scanFrom]
    by_cases hc : c = 10
    · have hlt : ¬ MaxScanTokenSize ≤ line.length := by omega
      rw [if_pos hc, if_neg hlt]
      exact scanFrom_small rest [] (by simp only [List.length_nil]; omega)
    · rw [if_neg hc]
      exact scanFrom_small rest (line ++ [c])
        (by simp only [List.length_append, List.length_singleton]; omega)

theorem fileOnDisk_openErr (content : Str) (readErr : Option GoError) :
    (fileOnDisk content readErr).openErr = none := rfl

theorem fileOnDisk_scanErr (content : Str) (readErr : Option GoError) :
    (fileOnDisk content readErr).scanErr = (scanFrom readErr content []).2 := rfl

theorem listRaw_scan_error (fs : FileSystem) (file : Str) {err : GoError}
    (hopen : (fs file).openErr = none) (hscan : (fs file).scanErr = some err) :
    (listRaw fs file).1 = Except.error err := by
  unfold listRaw
  rw [hopen, hscan]

/-- C8, as stated, fails: a file holding one line of 65536 bytes is read
without I/O error, but the line does not fit the buffer of the scanner, and
`listRaw` returns the error `bufio.Scanner: token too long`. -/
theorem C8_malformed_lines_counterexample :
    longLineFs (bytes "long.env") = fileOnDisk (List.replicate 65536 97) none ∧
    (listRaw longLineFs (bytes "long.env")).1 = Except.error ErrTooLong := by
  have h : scanFrom none (List.replicate 65536 97) [] = ([], some ErrTooLong) := by
    apply scanFrom_too_long
    · intro hm
      have := (List.mem_replicate.1 hm).2
      exact absurd this (by decide)
    · rw [List.length_replicate]
      decide
  have hfile : longLineFs (bytes "long.env") = fileOnDisk (List.replicate 65536 97) none := by
    unfold longLineFs
    rfl
  have hopen : (longLineFs (bytes "long.env")).openErr = none := by
    rw [hfile, fileOnDisk_openErr]
  have hscan : (longLineFs (bytes "long.env")).scanErr = some ErrTooLong := by
    rw [hfile, fileOnDisk_scanErr, h]
  exact ⟨hfile, listRaw_scan_error longLineFs (bytes "long.env") hopen hscan⟩

end Goenv
